import Mathlib

/-
  Verification development for the incremental simulation engine
  (incremental_engine.py).  The engine, its task-stepping kernel, the
  event-graph staleness analysis and the incremental driver are embedded
  as executable Lean functions; machine time is Nat, fallible code
  returns Except, and nonterminating loops carry explicit fuel.
-/

set_option maxHeartbeats 1000000

namespace Aerie

/-- Topics of events: user topics plus the three reserved kinds
READ, SPAWN and FINISH(task).  In the Python source the reserved topics are
the string "READ", the string "SPAWN" and the tuple ("FINISH", task); the
inductive keeps them disjoint from user topics. -/
inductive Topic where
  | user (s : String)
  | readT
  | spawnT
  | finishT (t : Nat)
deriving DecidableEq

/-- Values carried by events: user payloads, the topic list stored by a READ
event, and the task stored by a SPAWN event. -/
inductive Val where
  | vint (n : Int)
  | vstr (s : String)
  | vtopics (ts : List Topic)
  | vtask (t : Nat)
deriving DecidableEq

/-- Event = namedtuple("Event", "topic value progeny").  Tasks are identified
by Nat ids (the Python source uses generator-object identity). -/
structure Event where
  topic : Topic
  value : Val
  progeny : Nat
deriving DecidableEq

/-- Modelled from the spec: the EventGraph algebraic data type of
event_graph.py (not under src/): Empty | Atom(e) | Sequentially(a,b) |
Concurrently(a,b). -/
inductive EventGraph where
  | Empty
  | Atom (e : Event)
  | Sequentially (a b : EventGraph)
  | Concurrently (a b : EventGraph)
deriving DecidableEq

namespace EventGraph

/-- Modelled from the spec: the smart constructor seq(a,b) of event_graph.py,
collapsing Empty neighbours: seq(Empty,g)=g, seq(g,Empty)=g. -/
def seqG : EventGraph → EventGraph → EventGraph
  | Empty, g => g
  | g, Empty => g
  | a, b => Sequentially a b

/-- Modelled from the spec: the smart constructor conc(a,b) of event_graph.py,
collapsing Empty neighbours: conc(Empty,g)=g, conc(g,Empty)=g. -/
def concG : EventGraph → EventGraph → EventGraph
  | Empty, g => g
  | g, Empty => g
  | a, b => Concurrently a b

/-- Modelled from the spec: filter_p(g, predicate) of event_graph.py returns
the subgraph of atoms satisfying the predicate, preserving structure, with
composed nodes collapsing via the smart constructors. -/
def filterP (p : Event → Bool) : EventGraph → EventGraph
  | Empty => Empty
  | Atom e => if p e then Atom e else Empty
  | Sequentially a b => seqG (filterP p a) (filterP p b)
  | Concurrently a b => concG (filterP p a) (filterP p b)

/-- Modelled from the spec: filter(g, topics) of event_graph.py filters atoms
whose topic is in the given topic collection. -/
def filterT (g : EventGraph) (topics : List Topic) : EventGraph :=
  filterP (fun e => decide (e.topic ∈ topics)) g

/-- Modelled from the spec: to_set(g, projector) of event_graph.py folds the
graph to the collection of projections of its atoms.  The Python version
returns a set; the embedding returns the in-order list, and all consumers
use it only through membership. -/
def toListProj {α : Type} (f : Event → α) : EventGraph → List α
  | Empty => []
  | Atom e => [f e]
  | Sequentially a b => toListProj f a ++ toListProj f b
  | Concurrently a b => toListProj f a ++ toListProj f b

/-- The in-order list of atoms of a graph. -/
def atomsList : EventGraph → List Event := toListProj (fun e => e)

end EventGraph

/-- The topic list stored in a READ event value.  In Python this is
set(evt.value); READ events always carry a list of topics. -/
def valTopics : Val → List Topic
  | .vtopics ts => ts
  | _ => []

/-- Modelled from the spec: Directive(type, start_time, args) of protocol.py,
with structural equality over all three fields.  Arguments are an ordered
association list of named values (Python keyword dict). -/
structure Directive where
  type : String
  start_time : Nat
  args : List (String × Val)
deriving DecidableEq

abbrev Args := List (String × Val)

/-- Modelled from the spec: hashable_directive of protocol.py produces a
canonical hashable form of a directive; structural directives are already
canonical, so the embedding is the identity. -/
def hashable_directive (d : Directive) : Directive := d

/-- Modelled from the spec: restore_directive of protocol.py inverts
hashable_directive. -/
def restore_directive (d : Directive) : Directive := d

/-- Modelled from the spec: Plan of protocol.py, an ordered sequence of
directives. -/
structure Plan where
  directives : List Directive

/-- Modelled from the spec: a condition passed to AwaitCondition.  The model
DSL is out of scope; a condition is a closure that may read through the
current task frame and returns a boolean.  The embedding gives the two
shapes the kernel's behaviour is sensitive to: a constant result after a
fixed sequence of reads, and a test for presence of events on some topics
in the visible history. -/
inductive Cond where
  | constC (reads : List (List Topic)) (b : Bool)
  | anyEventC (topics : List Topic)

/-- Modelled from the spec: TaskStatus of protocol.py, the suspension
protocol yielded by activities: Completed, Delay(d), AwaitCondition(pred),
Call(type, args). -/
inductive TaskStatus where
  | Completed
  | Delay (duration : Nat)
  | AwaitCondition (condition : Cond)
  | Call (child_task : String) (args : Args)

/-- Modelled from the spec: an activity body as a deep embedding of the
coroutine protocol.  Between suspensions (yieldP / done) a task may emit,
read, or spawn through the engine facade. -/
inductive Program where
  | done
  | emitP (t : Topic) (v : Val) (k : Program)
  | readP (ts : List Topic) (k : Program)
  | spawnP (child : String) (args : Args) (k : Program)
  | yieldP (st : TaskStatus) (k : Program)

/-- Error kinds surfaced by the engine. -/
inductive SimError where
  | scheduleConflict
  | duplicateResumeTime
  | emitWithoutTask
  | readWithoutTask
  | unknownActivity (s : String)
  | noneFrame
  | keyError
  | outOfFuel
deriving DecidableEq

/-- Association-list lookup (Python dict lookup; keys are unique). -/
def alookup {α β : Type} [DecidableEq α] : List (α × β) → α → Option β
  | [], _ => none
  | kv :: rest, k => if kv.1 = k then some kv.2 else alookup rest k

/-- Association-list update: replace in place if the key is present,
else append (Python dict insertion-order semantics). -/
def aset {α β : Type} [DecidableEq α] : List (α × β) → α → β → List (α × β)
  | [], k, v => [(k, v)]
  | kv :: rest, k, v => if kv.1 = k then (k, v) :: rest else kv :: aset rest k v

/-- Association-list delete (Python del d[k]). -/
def aremove {α β : Type} [DecidableEq α] (l : List (α × β)) (k : α) : List (α × β) :=
  l.filter (fun kv => !decide (kv.1 = k))

/-- Association-list union (Python d.update(other)). -/
def aunion {α β : Type} [DecidableEq α] (l other : List (α × β)) : List (α × β) :=
  other.foldl (fun m kv => aset m kv.1 kv.2) l

/-- Append the elements of l to acc, skipping elements already present
(canonical representation of Python set accumulation, in discovery order). -/
def dedupAppend {α : Type} [DecidableEq α] (acc l : List α) : List α :=
  l.foldl (fun a x => if x ∈ a then a else a ++ [x]) acc

/-- JobSchedule: a time-indexed insertion-ordered mapping from start offsets
to batches of task ids. -/
structure JobSchedule where
  entries : List (Nat × List Nat)

namespace JobSchedule

/-- Whether a task occurs in any batch of the schedule. -/
def memTask (s : JobSchedule) (task : Nat) : Bool :=
  s.entries.any (fun kv => decide (task ∈ kv.2))

/-- schedule(start_offset, task): ensure the key exists, fail if the task is
already scheduled in any batch, otherwise append the task to that batch. -/
def schedule (s : JobSchedule) (start_offset : Nat) (task : Nat) :
    Except SimError JobSchedule :=
  let s' : JobSchedule :=
    if (alookup s.entries start_offset).isSome then s
    else ⟨s.entries ++ [(start_offset, [])]⟩
  if s'.memTask task then .error .scheduleConflict
  else .ok ⟨(s'.entries.map (fun kv =>
      if kv.1 = start_offset then (kv.1, kv.2 ++ [task]) else kv))⟩

/-- peek_next_time: the minimum key. -/
def peekNextTime (s : JobSchedule) : Option Nat :=
  match s.entries with
  | [] => none
  | kv :: rest => some (rest.foldl (fun m e => min m e.1) kv.1)

/-- get_next_batch: remove and return the batch at the minimum key. -/
def getNextBatch (s : JobSchedule) : Option (Nat × List Nat × JobSchedule) :=
  match s.peekNextTime with
  | none => none
  | some t =>
      some (t, (alookup s.entries t).getD [],
            ⟨s.entries.filter (fun kv => !decide (kv.1 = t))⟩)

/-- is_empty. -/
def isEmpty (s : JobSchedule) : Bool := s.entries.isEmpty

end JobSchedule

/-- TaskFrame: per-activation scratch accumulating the event graph produced
by one activation of one task, with the spawned children's graphs as
branches.  history is the engine's recorded event history at frame creation
(the Python frame aliases engine.events, which is not mutated during a
step). -/
structure Frame where
  elapsed_time : Nat
  task : Option Nat
  tip : EventGraph
  history : List (Nat × EventGraph)
  branches : List (EventGraph × EventGraph)

namespace Frame

/-- emit(topic, value): append an atom to the tip; fails when the frame has
no owning task. -/
def emit (fr : Frame) (topic : Topic) (value : Val) : Except SimError Frame :=
  match fr.task with
  | none => .error .emitWithoutTask
  | some tid =>
      .ok {fr with tip := EventGraph.seqG fr.tip (.Atom ⟨topic, value, tid⟩)}

/-- The visible history for a read: the caller-provided history plus one
synthetic entry at elapsed_time holding seq(all branch bases, tip). -/
def visibleHistory (fr : Frame) : List (Nat × EventGraph) :=
  let res := EventGraph.seqG
    (fr.branches.foldl (fun acc b => EventGraph.seqG acc b.1) .Empty) fr.tip
  fr.history ++ [(fr.elapsed_time, res)]

/-- read(topics): record a READ atom in the tip, then return the visible
history filtered to the given topics, dropping entries filtering to Empty.
The Python frame would record progeny None for a task-less frame; task-less
frames never read inside the engine, so the embedding reports an error
there. -/
def read (fr : Frame) (topics : List Topic) :
    Except SimError (List (Nat × EventGraph) × Frame) :=
  match fr.task with
  | none => .error .readWithoutTask
  | some tid =>
      let fr' := {fr with
        tip := EventGraph.seqG fr.tip (.Atom ⟨.readT, .vtopics topics, tid⟩)}
      let res := fr'.visibleHistory.filterMap (fun se =>
        let f := EventGraph.filterT se.2 topics
        if f = EventGraph.Empty then none else some (se.1, f))
      .ok (res, fr')

/-- spawn(event_graph): close the current tip as a new branch paired with the
child's graph, and reset the tip. -/
def spawnBranch (fr : Frame) (g : EventGraph) : Frame :=
  {fr with branches := fr.branches ++ [(fr.tip, g)], tip := .Empty}

/-- collect(): fold the branches right to left producing
seq(base, conc(child, rest)) with rest starting as the tip. -/
def collect (fr : Frame) : EventGraph :=
  fr.branches.reverse.foldl
    (fun res b => EventGraph.seqG b.1 (EventGraph.concG b.2 res)) fr.tip

end Frame

/-- The model contract: get_activity_types() as a partial map from activity
names to activity bodies parameterised by the directive arguments. -/
def ModelT : Type := String → Option (Args → Program)

/-- The first element of a recorded span: either the task's directive or,
when the directive table misses, the (activity type, arguments, task)
input triple. -/
inductive SpanKey where
  | dir (d : Directive)
  | inputK (ty : String) (args : Args) (task : Nat)
deriving DecidableEq

/-- A span key as returned to the caller: remove_task_from_spans drops the
internal task id from input-triple span keys. -/
inductive OutSpanKey where
  | dir (d : Directive)
  | inputK (ty : String) (args : Args)
deriving DecidableEq

/-- SimulationEngine state.  The event history and the elapsed time are
owned by the simulate loop (the Python step functions only read them), so
they are threaded separately; everything the step kernel mutates lives
here.  invoked is ghost instrumentation recording every activity
invocation (make_task call), in order. -/
structure Engine where
  task_children_spawned : List (Nat × List Nat)
  task_children_called : List (Nat × List Nat)
  current_task_frame : Option Frame
  schedule : JobSchedule
  activity_types : ModelT
  task_start_times : List (Nat × Nat)
  task_directives : List (Nat × Directive)
  task_inputs : List (Nat × (String × Args))
  awaiting_conditions : List (Cond × Nat)
  awaiting_tasks : List (Nat × Nat)
  spans : List (SpanKey × Nat × Nat)
  tasks : List (Nat × Program)
  nextId : Nat
  invoked : List (String × Args)

/-- The empty engine over a model, allocating task ids from idBase. -/
def initEngine (model : ModelT) (idBase : Nat) : Engine :=
  { task_children_spawned := [], task_children_called := [],
    current_task_frame := none, schedule := ⟨[]⟩,
    activity_types := model, task_start_times := [], task_directives := [],
    task_inputs := [], awaiting_conditions := [], awaiting_tasks := [],
    spans := [], tasks := [], nextId := idBase, invoked := [] }

/-- make_task: look up the activity body and create a fresh suspended task.
Records the invocation in the ghost trace. -/
def makeTaskE (eng : Engine) (directive_type : String) (arguments : Args) :
    Except SimError (Engine × Nat) :=
  match eng.activity_types directive_type with
  | none => .error (.unknownActivity directive_type)
  | some f =>
      let tid := eng.nextId
      .ok ({eng with nextId := tid + 1,
                     tasks := aset eng.tasks tid (f arguments),
                     invoked := eng.invoked ++ [(directive_type, arguments)]}, tid)

/-- Store a task's remaining program. -/
def storeTask (eng : Engine) (tid : Nat) (p : Program) : Engine :=
  {eng with tasks := aset eng.tasks tid p}

/-- The currently installed task frame, or an error when absent. -/
def getFrame (eng : Engine) : Except SimError Frame :=
  match eng.current_task_frame with
  | some fr => .ok fr
  | none => .error .noneFrame

/-- Install a task frame. -/
def setFrame (eng : Engine) (fr : Frame) : Engine :=
  {eng with current_task_frame := some fr}

/-- Requests to the task-stepping kernel: the four mutually recursive
operations next-suspension advance, engine spawn, spawn_task and step. -/
inductive StepReq where
  | advR (eng : Engine) (now tid : Nat) (p : Program)
  | spawnR (eng : Engine) (now : Nat) (directive_type : String) (arguments : Args)
  | spawnTaskR (eng : Engine) (now task : Nat) (is_call : Bool)
  | stepR (eng : Engine) (now task : Nat) (fr : Frame)

/-- Results of the task-stepping kernel. -/
inductive StepRes where
  | advV (eng : Engine) (st : TaskStatus)
  | engV (eng : Engine)
  | stepV (eng : Engine) (st : TaskStatus) (g : EventGraph)

/-- Project an advance result. -/
def asAdv : Except SimError StepRes → Except SimError (Engine × TaskStatus)
  | .ok (.advV e s) => .ok (e, s)
  | .ok _ => .error .keyError
  | .error e => .error e

/-- Project an engine result. -/
def asEng : Except SimError StepRes → Except SimError Engine
  | .ok (.engV e) => .ok e
  | .ok _ => .error .keyError
  | .error e => .error e

/-- Project a step result. -/
def asStep : Except SimError StepRes → Except SimError (Engine × TaskStatus × EventGraph)
  | .ok (.stepV e s g) => .ok (e, s, g)
  | .ok _ => .error .keyError
  | .error e => .error e

/-- The task-stepping kernel of the SimulationEngine, one fueled function
over the four operations.

advR: run a task's program forward to its next suspension, performing emits,
reads and spawns through the engine's current frame (the Python next(task)
driving the activity body through the engine facade); a finished program
behaves like StopIteration, reported as Completed.

spawnR: SimulationEngine.spawn(directive_type, arguments): create the task,
record its input and directive at the current time, and run it immediately
within the current frame.

spawnTaskR: SimulationEngine.spawn_task(task, is_call): record the start
time, step the task in a fresh frame seeded with a SPAWN event, record the
parent/child relation, and splice the child's collected graph into the
parent frame as a branch.

stepR: SimulationEngine.step(task, task_frame): install the frame, advance
the task one suspension, dispatch on the status (Delay, AwaitCondition,
Completed, Call), restore the previous frame and return the frame's
collected graph, extended with a synthetic READ of FINISH(task) by a
resuming caller. -/
def stepRun : Nat → StepReq → Except SimError StepRes
  | 0, _ => .error .outOfFuel
  | fuel + 1, req =>
    match req with
    | .advR eng now tid p =>
      (match p with
      | .done => .ok (.advV (storeTask eng tid .done) .Completed)
      | .yieldP st k => .ok (.advV (storeTask eng tid k) st)
      | .emitP t v k => do
          let fr ← getFrame eng
          let fr' ← fr.emit t v
          stepRun fuel (.advR (setFrame eng fr') now tid k)
      | .readP ts k => do
          let fr ← getFrame eng
          let (_, fr') ← fr.read ts
          stepRun fuel (.advR (setFrame eng fr') now tid k)
      | .spawnP child cargs k => do
          let eng' ← asEng (stepRun fuel (.spawnR eng now child cargs))
          stepRun fuel (.advR eng' now tid k))
    | .spawnR eng now directive_type arguments => do
        let (eng, task) ← makeTaskE eng directive_type arguments
        let td := aset eng.task_directives task ⟨directive_type, now, arguments⟩
        let eng := {eng with
          task_inputs := aset eng.task_inputs task (directive_type, arguments),
          task_directives := td}
        stepRun fuel (.spawnTaskR eng now task false)
    | .spawnTaskR eng now task is_call => do
        let eng := {eng with
          task_start_times := aset eng.task_start_times task now}
        match eng.current_task_frame with
        | none => .error .noneFrame
        | some parentFrame => do
            let childFrame₀ : Frame :=
              ⟨now, some task, .Empty, parentFrame.history, []⟩
            let childFrame ← childFrame₀.emit .spawnT (.vtask task)
            let (eng, _, events_g) ← asStep (stepRun fuel (.stepR eng now task childFrame))
            let eng :=
              match parentFrame.task with
              | some p =>
                  if is_call then
                    let cc := aset eng.task_children_called p ((alookup eng.task_children_called p).getD [] ++ [task])
                    {eng with task_children_called := cc}
                  else
                    let cs := aset eng.task_children_spawned p ((alookup eng.task_children_spawned p).getD [] ++ [task])
                    {eng with task_children_spawned := cs}
              | none => eng
            let parentFrame' := parentFrame.spawnBranch events_g
            .ok (.engV {eng with current_task_frame := some parentFrame'})
    | .stepR eng now task task_frame => do
        let restore := eng.current_task_frame
        let eng := {eng with current_task_frame := some task_frame}
        let prog := (alookup eng.tasks task).getD .done
        let (eng, task_status) ← asAdv (stepRun fuel (.advR eng now task prog))
        let (eng, resuming) ←
          (match task_status with
          | .Delay d => do
              let sched ← eng.schedule.schedule (now + d) task
              pure ({eng with schedule := sched}, (none : Option Nat))
          | .AwaitCondition c =>
              let ac := eng.awaiting_conditions ++ [(c, task)]
              pure ({eng with awaiting_conditions := ac}, (none : Option Nat))
          | .Completed => do
              let inp ←
                (match alookup eng.task_inputs task with
                | some i => pure i
                | none => Except.error SimError.keyError)
              let spanKey :=
                match alookup eng.task_directives task with
                | some d => SpanKey.dir d
                | none => SpanKey.inputK inp.1 inp.2 task
              let startT ←
                (match alookup eng.task_start_times task with
                | some s => pure s
                | none => Except.error SimError.keyError)
              let eng := {eng with spans := eng.spans ++ [(spanKey, startT, now)]}
              match alookup eng.awaiting_tasks task with
              | some blocked => do
                  let sched ← eng.schedule.schedule now blocked
                  let fr ← getFrame eng
                  let fr' ← fr.emit (.finishT task) (.vstr "FINISHED")
                  pure ({eng with schedule := sched,
                                  current_task_frame := some fr',
                                  awaiting_tasks := aremove eng.awaiting_tasks task},
                        some blocked)
              | none => pure (eng, (none : Option Nat))
          | .Call child_ty cargs => do
              let (eng, child) ← makeTaskE eng child_ty cargs
              let td := aset eng.task_directives child ⟨child_ty, now, cargs⟩
              let eng := {eng with
                awaiting_tasks := aset eng.awaiting_tasks child task,
                task_inputs := aset eng.task_inputs child (child_ty, cargs),
                task_directives := td}
              let eng ← asEng (stepRun fuel (.spawnTaskR eng now child true))
              pure (eng, (none : Option Nat)))
        let finalFrame ← getFrame eng
        let g := finalFrame.collect
        let g :=
          match resuming with
          | none => g
          | some r =>
              EventGraph.seqG g (.Atom ⟨.readT, .vtopics [.finishT task], r⟩)
        .ok (.stepV {eng with current_task_frame := restore} task_status g)

/-- Run a task's program to its next suspension (wrapper over the kernel). -/
def advance (fuel : Nat) (eng : Engine) (now tid : Nat) (p : Program) :
    Except SimError (Engine × TaskStatus) :=
  asAdv (stepRun fuel (.advR eng now tid p))

/-- SimulationEngine.spawn (wrapper over the kernel). -/
def engineSpawn (fuel : Nat) (eng : Engine) (now : Nat)
    (directive_type : String) (arguments : Args) : Except SimError Engine :=
  asEng (stepRun fuel (.spawnR eng now directive_type arguments))

/-- SimulationEngine.spawn_task (wrapper over the kernel). -/
def spawnTask (fuel : Nat) (eng : Engine) (now task : Nat) (is_call : Bool) :
    Except SimError Engine :=
  asEng (stepRun fuel (.spawnTaskR eng now task is_call))

/-- SimulationEngine.step (wrapper over the kernel). -/
def stepTask (fuel : Nat) (eng : Engine) (now task : Nat) (fr : Frame) :
    Except SimError (Engine × TaskStatus × EventGraph) :=
  asStep (stepRun fuel (.stepR eng now task fr))


/-- SimulationEngine.defer(directive_type, duration, arguments): create the
task and schedule it at elapsed_time + duration, recording its tables. -/
def deferE (eng : Engine) (now : Nat) (directive_type : String)
    (duration : Nat) (arguments : Args) : Except SimError Engine := do
  let (eng, task) ← makeTaskE eng directive_type arguments
  let sched ← eng.schedule.schedule (now + duration) task
  let td := aset eng.task_directives task ⟨directive_type, now + duration, arguments⟩
  let eng := {eng with schedule := sched}
  let eng := {eng with task_start_times := aset eng.task_start_times task (now + duration)}
  let eng := {eng with task_inputs := aset eng.task_inputs task (directive_type, arguments)}
  .ok {eng with task_directives := td}

/-- Evaluate a pending condition against a fresh read-only frame, returning
its boolean result and the frame holding the reads it performed. -/
def evalCond (c : Cond) (fr : Frame) : Except SimError (Bool × Frame) :=
  match c with
  | .constC reads b => do
      let fr ← reads.foldlM (fun f ts => do
        let r ← Frame.read f ts
        pure r.2) fr
      pure (b, fr)
  | .anyEventC topics => do
      let (res, fr') ← fr.read topics
      pure (!res.isEmpty, fr')

/-- Drain retained old events strictly earlier than the resume time into the
recorded history verbatim. -/
def drainOld (events old : List (Nat × EventGraph)) (resume : Nat) :
    List (Nat × EventGraph) × List (Nat × EventGraph) :=
  match old with
  | [] => (events, [])
  | (t, g) :: rest =>
      if t < resume then drainOld (events ++ [(t, g)]) rest resume
      else (events, (t, g) :: rest)

/-- Step every task of the current batch in a fresh frame over the current
history, composing the per-task graphs with conc. -/
def stepBatch (fuel : Nat) (now : Nat) (hist : List (Nat × EventGraph)) :
    Engine → List Nat → EventGraph → Except SimError (Engine × EventGraph)
  | eng, [], acc => .ok (eng, acc)
  | eng, task :: rest, acc => do
      let fr : Frame := ⟨now, some task, .Empty, hist, []⟩
      let (eng, _, g) ← stepTask fuel eng now task fr
      stepBatch fuel now hist eng rest (EventGraph.concG acc g)

/-- Merge a retained old entry at exactly the resume time into the batch
graph as conc(batch, old); a second retained entry at the same time is a
DuplicateResumeTime hard error. -/
def mergeOld (bg : EventGraph) (old : List (Nat × EventGraph)) (resume : Nat) :
    Except SimError (EventGraph × List (Nat × EventGraph)) :=
  match old with
  | (t, g) :: rest =>
      if t = resume then
        match rest with
        | (t2, _) :: _ =>
            if t2 = resume then .error .duplicateResumeTime
            else .ok (EventGraph.concG bg g, rest)
        | [] => .ok (EventGraph.concG bg g, [])
      else .ok (bg, (t, g) :: rest)
  | [] => .ok (bg, [])

/-- Append a non-Empty graph to the history at the current time, coalescing
with the last entry via seq when that entry is at the same time. -/
def appendCoalesce (events : List (Nat × EventGraph)) (now : Nat)
    (bg : EventGraph) : List (Nat × EventGraph) :=
  if bg = EventGraph.Empty then events
  else
    match events.getLast? with
    | some (t, g) =>
        if t = now then events.dropLast ++ [(t, EventGraph.seqG g bg)]
        else events ++ [(now, bg)]
    | none => [(now, bg)]

/-- Scan the remaining retained events for READ atoms by non-deleted tasks
whose topic list meets the topics newly emitted this tick; returns the
readers in discovery order. -/
def collectStaleReaders (old : List (Nat × EventGraph)) (deleted : List Nat)
    (invalidated : List Topic) : List Nat :=
  old.foldl (fun acc se =>
    let f := EventGraph.filterP (fun e =>
      decide (e.topic = Topic.readT) && !(decide (e.progeny ∈ deleted)) &&
        (valTopics e.value).any (fun t => decide (t ∈ invalidated))) se.2
    dedupAppend acc (EventGraph.toListProj (fun e => e.progeny) f)) []

/-- Worklist closure adding the Call parent of every stale reader (the
source appends parents without removing the children). -/
def callClosure : Nat → List (Nat × Nat) → List Nat → List Nat →
    Except SimError (List Nat)
  | 0, _, _, _ => .error .outOfFuel
  | fuel + 1, parentCalled, acc, worklist =>
      match worklist with
      | [] => .ok acc
      | r :: rest =>
          match alookup parentCalled r with
          | some p =>
              callClosure fuel parentCalled
                (if p ∈ acc then acc else acc ++ [p]) (rest ++ [p])
          | none => callClosure fuel parentCalled acc rest

/-- Move every batch of a (temporary) schedule into the engine's schedule,
earliest first, via JobSchedule.schedule. -/
def drainSchedule : Nat → Engine → JobSchedule → Except SimError Engine
  | 0, _, _ => .error .outOfFuel
  | fuel + 1, eng, s =>
      if s.isEmpty then .ok eng
      else
        match s.getNextBatch with
        | none => .error .keyError
        | some (t, batch, s') => do
            let eng ← batch.foldlM (fun e task => do
              let sch ← e.schedule.schedule t task
              pure {e with schedule := sch}) eng
            drainSchedule fuel eng s'

/-- Evaluate the pending conditions (popped from the end of the list as the
source does), scheduling satisfied tasks at the current time, re-queueing the
rest, and conc-accumulating the reads each condition performed. -/
def conditionLoop (now : Nat) (hist : List (Nat × EventGraph)) :
    Engine → List (Cond × Nat) → EventGraph →
    Except SimError (Engine × EventGraph)
  | eng, [], acc => .ok (eng, acc)
  | eng, (c, task) :: rest, acc => do
      let fr : Frame := ⟨now, some task, .Empty, hist, []⟩
      let eng := setFrame eng fr
      let (b, fr') ← evalCond c fr
      let eng := setFrame eng fr'
      let eng ←
        if b then do
          let sched ← eng.schedule.schedule now task
          pure {eng with schedule := sched}
        else
          let ac := eng.awaiting_conditions ++ [(c, task)]
          pure {eng with awaiting_conditions := ac}
      conditionLoop now hist eng rest (EventGraph.concG acc fr'.collect)

/-- The condition phase of one tick: snapshot and clear the pending
conditions, evaluate them, and coalesce their reads into the history. -/
def conditionPhase (fuel : Nat) (now : Nat) (eng : Engine)
    (events : List (Nat × EventGraph)) :
    Except SimError (Engine × List (Nat × EventGraph)) := do
  let pending := eng.awaiting_conditions
  let _ := fuel
  let eng := {eng with awaiting_conditions := []}
  let (eng, condition_reads) ← conditionLoop now events eng pending.reverse .Empty
  .ok (eng, appendCoalesce events now condition_reads)

/-- remove_task_from_spans: strip internal task ids from input-triple span
keys; directive span keys pass through. -/
def removeTaskFromSpans (spans : List (SpanKey × Nat × Nat)) :
    List (OutSpanKey × Nat × Nat) :=
  spans.map (fun s =>
    match s.1 with
    | .dir d => (OutSpanKey.dir d, s.2)
    | .inputK ty args _ => (OutSpanKey.inputK ty args, s.2))

/-- Whether a topic is one of the three reserved kinds. -/
def isSpecialTopic : Topic → Bool
  | .readT => true
  | .spawnT => true
  | .finishT _ => true
  | .user _ => false

/-- without_special_events: remove READ, SPAWN and FINISH(_) atoms from every
entry, dropping entries that filter to Empty. -/
def withoutSpecialEvents (events : List (Nat × EventGraph)) :
    List (Nat × EventGraph) :=
  events.filterMap (fun se =>
    let f := EventGraph.filterP (fun e => !isSpecialTopic e.topic) se.2
    if f = EventGraph.Empty then none else some (se.1, f))

/-- Stable insertion of an element after every element le-below-or-equal it. -/
def insertLe {α : Type} (le : α → α → Bool) (x : α) : List α → List α
  | [] => [x]
  | y :: ys => if le y x then y :: insertLe le x ys else x :: y :: ys

/-- Stable sort by a boolean total preorder (Python sorted). -/
def stableSortBy {α : Type} (le : α → α → Bool) (l : List α) : List α :=
  l.foldl (fun acc x => insertLe le x acc) []

/-- The (start, end) lexicographic span ordering used by sorted(key). -/
def spanLe {α : Type} (x y : α × Nat × Nat) : Bool :=
  decide (x.2.1 < y.2.1) ||
    (decide (x.2.1 = y.2.1) && decide (x.2.2 ≤ y.2.2))

/-- Invert a parent-to-children map into a child-to-parent map, later
parents overwriting (the Python dict comprehension). -/
def invertChildren (d : List (Nat × List Nat)) : List (Nat × Nat) :=
  d.foldl (fun m pc => pc.2.foldl (fun m c => aset m c pc.1) m) []

/-- Payload: the carrier of engine bookkeeping consumed by incremental
re-simulation. -/
structure Payload where
  events : List (Nat × EventGraph)
  spans : List (SpanKey × Nat × Nat)
  plan_directive_to_task : List (Directive × Nat)
  task_directives : List (Nat × Directive)
  task_children_called : List (Nat × List Nat)
  task_children_spawned : List (Nat × List Nat)
  task_parent_called : List (Nat × Nat)
  task_parent_spawned : List (Nat × Nat)
  deleted_tasks : List Nat
deriving DecidableEq

/-- The result of one simulate run: the observable spans and events, the
payload, plus the final engine (the Python caller reaches it through the
register_engine callback) and the ghost invocation trace. -/
structure SimResult where
  spans : List (OutSpanKey × Nat × Nat)
  events : List (Nat × EventGraph)
  payload : Payload
  engine : Engine
  invoked : List (String × Args)

/-- Loop-carried state of the simulate main loop: the engine, the recorded
history, the remaining retained old events, and the deleted-task set. -/
structure LoopSt where
  eng : Engine
  events : List (Nat × EventGraph)
  old : List (Nat × EventGraph)
  deleted : List Nat

/-- Context fixed across one simulate run. -/
structure SimCtx where
  model : ModelT
  stop_time : Option Nat
  old_task_directives : List (Nat × Directive)
  old_task_parent_spawned : List (Nat × Nat)
  old_task_parent_called : List (Nat × Nat)

/-- Whether the loop stops because the next resume time reached stop_time. -/
def stopReached (stop : Option Nat) (resume : Nat) : Bool :=
  match stop with
  | some t => decide (resume ≥ t)
  | none => false

/-- The payload entry plan_directive_to_task: directive (canonical form) to
task, later tasks with an equal directive overwriting earlier ones. -/
def planDirToTask (td : List (Nat × Directive)) : List (Directive × Nat) :=
  td.foldl (fun m kv => aset m (hashable_directive kv.2) kv.1) []

mutual

/-- The main loop of simulate: pop the earliest batch, reuse retained old
events, step the batch, merge and coalesce graphs, detect stale readers
against the retained history (replaying them in a nested run), then
re-evaluate pending conditions. -/
def simLoop : Nat → SimCtx → LoopSt → Except SimError LoopSt
  | 0, _, _ => .error .outOfFuel
  | fuel + 1, ctx, st =>
      if st.eng.schedule.isEmpty then .ok st
      else do
        let resume ←
          (match st.eng.schedule.peekNextTime with
          | some r => pure r
          | none => Except.error SimError.keyError)
        if stopReached ctx.stop_time resume then .ok st
        else do
          let (events, old) := drainOld st.events st.old resume
          let (batch, sched) ←
            (match st.eng.schedule.getNextBatch with
            | some (_, b, s) => pure (b, s)
            | none => Except.error SimError.keyError)
          let eng := {st.eng with schedule := sched}
          let (eng, bg) ← stepBatch fuel resume events eng batch .Empty
          let newly_invalidated := EventGraph.toListProj (fun e => e.topic) bg
          let (bg, old) ← mergeOld bg old resume
          let events := appendCoalesce events resume bg
          let newly_stale := collectStaleReaders old st.deleted newly_invalidated
          let (eng, old, deleted) ←
            if newly_stale.isEmpty then pure (eng, old, st.deleted)
            else staleBranch fuel ctx resume eng old st.deleted newly_stale
          let (eng, events) ← conditionPhase fuel resume eng events
          simLoop fuel ctx ⟨eng, events, old, deleted⟩

/-- The stale-reader branch of one tick: close the reader set under Call
parents, mark the readers deleted, drop their events from the retained
history, replay their directives (those without a Call parent) in a nested
engine stopped at the current time, and merge the nested engine's tables,
schedule and spans back (its event history is not merged). -/
def staleBranch : Nat → SimCtx → Nat → Engine → List (Nat × EventGraph) →
    List Nat → List Nat →
    Except SimError (Engine × List (Nat × EventGraph) × List Nat)
  | 0, _, _, _, _, _, _ => .error .outOfFuel
  | fuel + 1, ctx, now, eng, old, deleted, newly₀ => do
      let newly ← callClosure (fuel + 1) ctx.old_task_parent_called newly₀ newly₀
      let deleted := dedupAppend deleted newly
      let old := old.filterMap (fun se =>
        let f := EventGraph.filterP (fun e => !(decide (e.progeny ∈ newly))) se.2
        if f = EventGraph.Empty then none else some (se.1, f))
      let dirs ← newly.foldlM (fun acc r =>
        if (alookup ctx.old_task_parent_called r).isSome then pure acc
        else
          match alookup ctx.old_task_directives r with
          | some d => pure (acc ++ [d])
          | none => Except.error SimError.keyError) []
      let res ← simulateRun fuel ctx.model ⟨dirs⟩ (some now) [] [] [] [] []
        eng.nextId
      let temp := res.engine
      let eng := {eng with
        task_children_called := aunion eng.task_children_called temp.task_children_called,
        task_children_spawned := aunion eng.task_children_spawned temp.task_children_spawned}
      let eng ← drainSchedule (fuel + 1) eng temp.schedule
      let eng := {eng with
        task_start_times := aunion eng.task_start_times temp.task_start_times,
        task_directives := aunion eng.task_directives temp.task_directives,
        task_inputs := aunion eng.task_inputs temp.task_inputs,
        awaiting_conditions := eng.awaiting_conditions ++ temp.awaiting_conditions,
        awaiting_tasks := aunion eng.awaiting_tasks temp.awaiting_tasks,
        spans := eng.spans ++ temp.spans,
        invoked := eng.invoked ++ temp.invoked,
        nextId := temp.nextId}
      .ok (eng, old, deleted)

/-- simulate(register_engine, model_class, plan, stop_time, old_events,
deleted_tasks, old_task_directives, old_task_parent_spawned,
old_task_parent_called): run the plan, returning the observable spans and
events plus the payload.  Fresh task ids are allocated from idBase, the
analogue of Python object identity keeping new tasks distinct from tasks
in a caller-provided payload. -/
def simulateRun : Nat → ModelT → Plan → Option Nat →
    List (Nat × EventGraph) → List Nat → List (Nat × Directive) →
    List (Nat × Nat) → List (Nat × Nat) → Nat → Except SimError SimResult
  | 0, _, _, _, _, _, _, _, _, _ => .error .outOfFuel
  | fuel + 1, model, plan, stop_time, old_events, deleted₀, oldDirs,
      oldPSpawned, oldPCalled, idBase => do
      let eng₀ := initEngine model idBase
      let eng ← plan.directives.foldlM
        (fun e d => deferE e 0 d.type d.start_time d.args) eng₀
      let ctx : SimCtx := ⟨model, stop_time, oldDirs, oldPSpawned, oldPCalled⟩
      let fin ← simLoop fuel ctx ⟨eng, [], old_events, deleted₀⟩
      let events := fin.events ++ fin.old
      let spansSorted := stableSortBy spanLe fin.eng.spans
      let payload : Payload := {
        events := events,
        spans := spansSorted,
        plan_directive_to_task := planDirToTask fin.eng.task_directives,
        task_directives := fin.eng.task_directives,
        task_children_called := fin.eng.task_children_called,
        task_children_spawned := fin.eng.task_children_spawned,
        task_parent_called := invertChildren fin.eng.task_children_called,
        task_parent_spawned := invertChildren fin.eng.task_children_spawned,
        deleted_tasks := fin.deleted }
      .ok ⟨removeTaskFromSpans spansSorted, withoutSpecialEvents events,
           payload, fin.eng, fin.eng.invoked⟩

end

/-- Set union on topic lists (canonical, membership-preserving). -/
def topicUnion (a b : List Topic) : List Topic := dedupAppend a b

/-- get_stale_reads_helper(event_graph, stale_topics): walk the graph
returning the stale READ atoms in order and the accumulated topic set.  A
READ atom is stale when its topic list meets the accumulated set; a
non-READ atom adds its topic; a Sequentially node feeds the prefix's
accumulated topics into the suffix; a Concurrently node walks both sides
with the incoming set, so siblings are mutually invisible. -/
def get_stale_reads_helper : EventGraph → List Topic → List Event × List Topic
  | .Empty, stale_topics => ([], stale_topics)
  | .Atom e, stale_topics =>
      if e.topic = Topic.readT then
        if (valTopics e.value).any (fun t => decide (t ∈ stale_topics)) then
          ([e], stale_topics)
        else ([], stale_topics)
      else ([], topicUnion stale_topics [e.topic])
  | .Sequentially a b, stale_topics =>
      let pa := get_stale_reads_helper a stale_topics
      let pb := get_stale_reads_helper b (topicUnion stale_topics pa.2)
      (pa.1 ++ pb.1, topicUnion pa.2 pb.2)
  | .Concurrently a b, stale_topics =>
      let pa := get_stale_reads_helper a stale_topics
      let pb := get_stale_reads_helper b stale_topics
      (pa.1 ++ pb.1, topicUnion pa.2 pb.2)

/-- get_stale_reads(event_graph): the stale READ atoms starting from the
empty topic set. -/
def get_stale_reads (g : EventGraph) : List Event :=
  (get_stale_reads_helper g []).1

/-- collapse_simultaneous(history, combiner): sort by time (stably) and
combine entries at equal times. -/
def collapseSimultaneous (history : List (Nat × EventGraph))
    (combiner : EventGraph → EventGraph → EventGraph) :
    List (Nat × EventGraph) :=
  let sortedH := stableSortBy (fun x y => decide (x.1 ≤ y.1)) history
  sortedH.foldl (fun res se =>
    match res.getLast? with
    | some (t, g) =>
        if t = se.1 then res.dropLast ++ [(t, combiner g se.2)]
        else res ++ [se]
    | none => [se]) []

/-- Remove the first occurrence of a directive, if present. -/
def eraseFirstD : List Directive → Directive → Option (List Directive)
  | [], _ => none
  | x :: xs, d =>
      if x = d then some xs
      else (eraseFirstD xs d).map (fun r => x :: r)

/-- diff(old_directives, new_directives): greedy structural multiset diff.
The Python passes repeatedly match and remove equal pairs until a fixpoint;
the residual lists are the old directives with the first matched
occurrences removed (deleted) and likewise for the new ones (added). -/
def diffD : List Directive → List Directive →
    List Directive × List Directive × List Directive
  | [], news => ([], [], news)
  | o :: olds, news =>
      match eraseFirstD news o with
      | some news' =>
          let r := diffD olds news'
          (o :: r.1, r.2.1, r.2.2)
      | none =>
          let r := diffD olds news
          (r.1, o :: r.2.1, r.2.2)

/-- The deletion closure: from the deleted directives' tasks, transitively
include all spawned and called children (worklist popped from the end, as
the source's list.pop does). -/
def deletionClosure : Nat → List (Nat × List Nat) → List (Nat × List Nat) →
    List Nat → List Nat → Except SimError (List Nat)
  | 0, _, _, _, _ => .error .outOfFuel
  | fuel + 1, spawned, called, deleted, worklist =>
      match worklist.getLast? with
      | none => .ok deleted
      | some task =>
          let wl := worklist.dropLast
          let p1 :=
            match alookup spawned task with
            | some cs => (deleted ++ cs, wl ++ cs)
            | none => (deleted, wl)
          let p2 :=
            match alookup called task with
            | some cs => (p1.1 ++ cs, p1.2 ++ cs)
            | none => p1
          deletionClosure fuel spawned called p2.1 p2.2

/-- One pass of the incremental staleness analysis: linearise the retained
reads together with the deleted and already-stale tasks' events, walk for
stale reads, and return the progenies newly found stale, in order. -/
def staleFixpointStep (events : List (Nat × EventGraph))
    (deleted stale : List Nat) : List Nat :=
  let rad := events.foldl (fun acc se =>
    let f := EventGraph.filterP (fun e =>
      decide (e.topic = Topic.readT) || decide (e.progeny ∈ deleted) ||
        decide (e.progeny ∈ stale)) se.2
    EventGraph.seqG acc f) .Empty
  let sr := get_stale_reads rad
  sr.foldl (fun ns e =>
    if decide (e.progeny ∈ deleted) || decide (e.progeny ∈ stale) ||
        decide (e.progeny ∈ ns) then ns
    else ns ++ [e.progeny]) []

/-- The staleness fixpoint of simulate_incremental: repeat the analysis pass
until no new stale task appears. -/
def staleFixpoint : Nat → List (Nat × EventGraph) → List Nat → List Nat →
    Except SimError (List Nat)
  | 0, _, _, _ => .error .outOfFuel
  | fuel + 1, events, deleted, stale =>
      let ns := staleFixpointStep events deleted stale
      if ns.isEmpty then .ok stale
      else staleFixpoint fuel events deleted (stale ++ ns)

/-- The analysis phase of simulate_incremental: plan diff, deletion closure,
staleness fixpoint, and the directive set chosen for replay. -/
structure IncAnalysis where
  unchanged_directives : List Directive
  deleted_directives : List Directive
  added_directives : List Directive
  deleted_tasks : List Nat
  stale_tasks : List Nat
  stale_directives : List Directive
  directives_to_simulate : List Directive
deriving DecidableEq

/-- Compute the analysis phase of simulate_incremental (its lines up to the
construction of directives_to_simulate). -/
def incrementalAnalysis (fuel : Nat) (new_plan old_plan : Plan)
    (payload : Payload) : Except SimError IncAnalysis := do
  let d := diffD old_plan.directives new_plan.directives
  let unchanged := d.1
  let deleted_dirs := d.2.1
  let added_dirs := d.2.2
  let deleted₀ ← deleted_dirs.foldlM (fun acc dd =>
    match alookup payload.plan_directive_to_task (hashable_directive dd) with
    | some t => pure (acc ++ [t])
    | none => Except.error SimError.keyError) []
  let deleted ← deletionClosure fuel payload.task_children_spawned
    payload.task_children_called deleted₀ deleted₀
  let stale ← staleFixpoint fuel payload.events deleted []
  let task_to_directive := payload.plan_directive_to_task.foldl
    (fun m kv => aset m kv.2 kv.1) []
  let stale_dirs ← stale.foldlM (fun acc t =>
    match alookup task_to_directive t with
    | some dd => pure (acc ++ [restore_directive dd])
    | none => Except.error SimError.keyError) []
  .ok ⟨unchanged, deleted_dirs, added_dirs, deleted, stale, stale_dirs,
       added_dirs ++ stale_dirs⟩

/-- An upper bound on every task id mentioned in a payload; fresh ids for an
incremental run are allocated above it (Python object identity). -/
def payloadMaxId (p : Payload) : Nat :=
  let fromList (l : List Nat) : Nat := l.foldl max 0
  let fromPairs (l : List (Nat × Nat)) : Nat :=
    l.foldl (fun m kv => max m (max kv.1 kv.2)) 0
  let fromChildren (l : List (Nat × List Nat)) : Nat :=
    l.foldl (fun m kv => max (max m kv.1) (fromList kv.2)) 0
  let fromEvents : Nat :=
    p.events.foldl (fun m se =>
      (EventGraph.toListProj (fun e => e.progeny) se.2).foldl max m) 0
  let fromDirs (l : List (Nat × Directive)) : Nat :=
    l.foldl (fun m kv => max m kv.1) 0
  max (max (max (fromDirs p.task_directives)
    (p.plan_directive_to_task.foldl (fun m kv => max m kv.2) 0))
    (max (fromChildren p.task_children_called) (fromChildren p.task_children_spawned)))
    (max (max (fromPairs p.task_parent_called) (fromPairs p.task_parent_spawned))
    (max (fromList p.deleted_tasks) fromEvents))

/-- Whether a span key equals a directive (Python x[0] != deleted_directive;
an input-triple key never equals a directive of the modelled protocol). -/
def spanKeyEqDir (k : SpanKey) (d : Directive) : Bool :=
  match k with
  | .dir d' => decide (d' = d)
  | .inputK _ _ _ => false

/-- Python x[0][2] not in deleted_tasks: the third component of an
input-triple span key is its task; for a directive key the third field is
its argument map, never equal to a task id. -/
def spanKeyTaskIn (k : SpanKey) (tasks : List Nat) : Bool :=
  match k with
  | .dir _ => false
  | .inputK _ _ t => decide (t ∈ tasks)

/-- The observable result of simulate_incremental.  The Python returns
(spans, events, None); invoked is the ghost trace of activity invocations
performed by the inner replay simulation. -/
structure IncResult where
  spans : List (OutSpanKey × Nat × Nat)
  events : List (Nat × EventGraph)
  invoked : List (String × Args)
deriving DecidableEq

/-- The replay and span-reconciliation phase of simulate_incremental, given
the result of the analysis phase: filter the retained history, replay the
added and stale directives over it, and reconcile spans. -/
def incrementalFinish (fuel : Nat) (model : ModelT) (payload : Payload)
    (A : IncAnalysis) : Except SimError IncResult := do
  let old_events_filtered := payload.events.filterMap (fun se =>
    let f := EventGraph.filterP (fun e =>
      !(decide (e.progeny ∈ A.deleted_tasks)) &&
        !(decide (e.progeny ∈ A.stale_tasks))) se.2
    if f = EventGraph.Empty then none else some (se.1, f))
  let idBase := payloadMaxId payload + 1
  let res ← simulateRun fuel model ⟨A.directives_to_simulate⟩ none
    old_events_filtered A.deleted_tasks payload.task_directives
    payload.task_parent_spawned payload.task_parent_called idBase
  let old_spans₀ := payload.spans
  let deleted := A.deleted_tasks ++ res.payload.deleted_tasks
  let deleted_dirs := deleted.foldl (fun acc t =>
    match alookup payload.task_directives t with
    | some dd => acc ++ [dd]
    | none => acc) A.deleted_directives
  let old_spans₁ := old_spans₀.filter (fun s =>
    !(deleted_dirs.any (fun dd => spanKeyEqDir s.1 dd)))
  let old_spans₂ := old_spans₁.filter (fun s => !(spanKeyTaskIn s.1 deleted))
  let old_spans₃ := old_spans₂.filter (fun s =>
    !(A.stale_directives.any (fun dd => spanKeyEqDir s.1 dd)))
  .ok ⟨stableSortBy spanLe (removeTaskFromSpans old_spans₃ ++ res.spans),
       withoutSpecialEvents (collapseSimultaneous res.events EventGraph.seqG),
       res.engine.invoked⟩

/-- simulate_incremental(register_engine, model_class, new_plan, old_plan,
payload): diff the plans, close deletions, run the staleness fixpoint,
filter the retained history, replay the added and stale directives over it,
and reconcile spans. -/
def simulate_incremental (fuel : Nat) (model : ModelT)
    (new_plan old_plan : Plan) (payload : Payload) :
    Except SimError IncResult := do
  let A ← incrementalAnalysis fuel new_plan old_plan payload
  incrementalFinish fuel model payload A

/-- Project the ok value of a run result. -/
def okE {α : Type} : Except SimError α → Option α
  | .ok a => some a
  | .error _ => none

/-- Specification-side: a direction into a binary event-graph node. -/
inductive Dir2 where
  | left
  | right
deriving DecidableEq

/-- Specification-side: the in-order list of atom occurrences of a graph,
each with its access path. -/
def occs : EventGraph → List (List Dir2 × Event)
  | .Empty => []
  | .Atom e => [([], e)]
  | .Sequentially a b =>
      (occs a).map (fun pe => (Dir2.left :: pe.1, pe.2)) ++
        (occs b).map (fun pe => (Dir2.right :: pe.1, pe.2))
  | .Concurrently a b =>
      (occs a).map (fun pe => (Dir2.left :: pe.1, pe.2)) ++
        (occs b).map (fun pe => (Dir2.right :: pe.1, pe.2))

/-- Specification-side happens-before on occurrence paths: p is strictly
before q when their lowest common ancestor is a Sequentially node with p in
its prefix and q in its suffix.  Occurrences on the two sides of a
Concurrently node are never related. -/
def hbBefore : EventGraph → List Dir2 → List Dir2 → Bool
  | .Sequentially _ _, Dir2.left :: _, Dir2.right :: _ => true
  | .Sequentially a _, Dir2.left :: p, Dir2.left :: q => hbBefore a p q
  | .Sequentially _ b, Dir2.right :: p, Dir2.right :: q => hbBefore b p q
  | .Concurrently a _, Dir2.left :: p, Dir2.left :: q => hbBefore a p q
  | .Concurrently _ b, Dir2.right :: p, Dir2.right :: q => hbBefore b p q
  | _, _, _ => false

/-- Specification-side: whether topic t is emitted by some non-READ atom
strictly happens-before the occurrence at path q. -/
def beforeTopicMem (g : EventGraph) (q : List Dir2) (t : Topic) : Bool :=
  (occs g).any (fun pe =>
    hbBefore g pe.1 q && !(decide (pe.2.topic = Topic.readT)) &&
      decide (pe.2.topic = t))

/-- Specification-side characterisation of the stale reads of a graph under
an initial topic set S: the READ atoms, in order, whose topic list meets S
or the topics of non-READ atoms strictly before them in happens-before
order. -/
def staleReadsSpec (g : EventGraph) (S : List Topic) : List Event :=
  (occs g).filterMap (fun qe =>
    if decide (qe.2.topic = Topic.readT) &&
        (valTopics qe.2.value).any
          (fun t => decide (t ∈ S) || beforeTopicMem g qe.1 t)
    then some qe.2 else none)

/-- The topics of the non-READ atoms of a graph. -/
def nonReadTopics (g : EventGraph) : List Topic :=
  ((EventGraph.atomsList g).filter
    (fun e => !decide (e.topic = Topic.readT))).map Event.topic

/-- Strictly increasing start offsets of a history. -/
def timesStrict (l : List (Nat × EventGraph)) : Prop :=
  List.Pairwise (fun a b => a < b) (l.map Prod.fst)

/-- A history with no Empty entries. -/
def noEmptyE (l : List (Nat × EventGraph)) : Prop :=
  ∀ se ∈ l, se.2 ≠ EventGraph.Empty

/-- The start offsets of a schedule's batches. -/
def schedTimes (s : JobSchedule) : List Nat := s.entries.map Prod.fst

/-- The number of occurrences of a task across all batches of a schedule. -/
def schedCount (s : JobSchedule) (task : Nat) : Nat :=
  (s.entries.map (fun kv => kv.2.count task)).sum

/-- The engine carried by a step request. -/
def reqEng : StepReq → Engine
  | .advR e _ _ _ => e
  | .spawnR e _ _ _ => e
  | .spawnTaskR e _ _ _ => e
  | .stepR e _ _ _ => e

/-- The time carried by a step request. -/
def reqNow : StepReq → Nat
  | .advR _ n _ _ => n
  | .spawnR _ n _ _ => n
  | .spawnTaskR _ n _ _ => n
  | .stepR _ n _ _ => n

/-- The engine carried by a step result. -/
def resEng : StepRes → Engine
  | .advV e _ => e
  | .engV e => e
  | .stepV e _ _ => e

/-- The invariant of the simulate main loop: both history lists are strictly
increasing and Empty-free, every recorded time strictly precedes every
retained old time, and no recorded time exceeds a scheduled batch time. -/
def loopInv (st : LoopSt) : Prop :=
  timesStrict st.events ∧ noEmptyE st.events ∧
    timesStrict st.old ∧ noEmptyE st.old ∧
    (∀ t ∈ st.events.map Prod.fst, ∀ u ∈ st.old.map Prod.fst, t < u) ∧
    (∀ t ∈ st.events.map Prod.fst, ∀ s ∈ schedTimes st.eng.schedule, t ≤ s)

/-- Concrete model for the divergence scenarios: two independent one-emit
activities. -/
def modelAB : ModelT := fun s =>
  if s = "actA" then some (fun _ => .emitP (.user "a") (.vint 1) .done)
  else if s = "actB" then some (fun _ => .emitP (.user "b") (.vint 1) .done)
  else none

def planA : Plan := ⟨[⟨"actA", 10, []⟩]⟩

def planAB : Plan := ⟨[⟨"actA", 10, []⟩, ⟨"actB", 10, []⟩]⟩

/-- Concrete model with a writer emitting topic p at 10 and a reader reading
p at 20. -/
def modelWR : ModelT := fun s =>
  if s = "writerX" then some (fun _ => .emitP (.user "p") (.vint 1) .done)
  else if s = "readerY" then some (fun _ => .readP [.user "p"] .done)
  else none

def planWR : Plan := ⟨[⟨"writerX", 10, []⟩, ⟨"readerY", 20, []⟩]⟩

def planR : Plan := ⟨[⟨"readerY", 20, []⟩]⟩

/-- Concrete model with an emitter, a caller and a called child that reads
the emitter's topic. -/
def modelCC : ModelT := fun s =>
  if s = "emitter" then some (fun _ => .emitP (.user "p") (.vint 1) .done)
  else if s = "callerA" then some (fun _ => .yieldP (.Call "calleeB" []) .done)
  else if s = "calleeB" then some (fun _ => .readP [.user "p"] .done)
  else none

def planEC : Plan := ⟨[⟨"emitter", 10, []⟩, ⟨"callerA", 20, []⟩]⟩

def planC : Plan := ⟨[⟨"callerA", 20, []⟩]⟩

/-- A retained history with two entries at one time, strictly before any
resume time of planA's run. -/
def dupOldEvents : List (Nat × EventGraph) :=
  [(5, .Atom ⟨.user "e1", .vint 1, 77⟩), (5, .Atom ⟨.user "e2", .vint 2, 78⟩)]

/-- The analysis of changing planA to planAB over payloadA: actB added,
nothing deleted, nothing stale. -/
def anA : IncAnalysis :=
  ⟨[⟨"actA", 10, []⟩], [], [⟨"actB", 10, []⟩], [], [], [], [⟨"actB", 10, []⟩]⟩

/-- The analysis of the identity diff of planA over payloadA: nothing added,
deleted or stale. -/
def anA0 : IncAnalysis :=
  ⟨[⟨"actA", 10, []⟩], [], [], [], [], [], []⟩

/-- The analysis of changing planWR to planR over payloadWR: the writer is
deleted and the reader becomes stale. -/
def anWR : IncAnalysis :=
  ⟨[⟨"readerY", 20, []⟩], [⟨"writerX", 10, []⟩], [], [0], [1],
   [⟨"readerY", 20, []⟩], [⟨"readerY", 20, []⟩]⟩

/-- The analysis of changing planEC to planC over payloadEC: the emitter is
deleted, the called child and its caller become stale, and both of their
directives are chosen for replay. -/
def anEC : IncAnalysis :=
  ⟨[⟨"callerA", 20, []⟩], [⟨"emitter", 10, []⟩], [], [0], [2, 1],
   [⟨"calleeB", 20, []⟩, ⟨"callerA", 20, []⟩],
   [⟨"calleeB", 20, []⟩, ⟨"callerA", 20, []⟩]⟩

/-- A small engine holding one deferred actA task, for exercising step. -/
def engW : Engine :=
  match deferE (initEngine modelAB 0) 0 "actA" 10 [] with
  | .ok e => e
  | .error _ => initEngine modelAB 0

/-- A fresh frame for stepping engW's task at time 10. -/
def frW : Frame := ⟨10, some 0, .Empty, [], []⟩

/-- The engine left by stepping engW's task once. -/
def engW' : Engine :=
  match stepTask 6 engW 10 0 frW with
  | .ok (e, _, _) => e
  | .error _ => initEngine modelAB 0

/-- All fields of a payload, as a tuple (used to state computed payloads
compactly). -/
def payloadFields (p : Payload) :
    List (Nat × EventGraph) × List (SpanKey × Nat × Nat) ×
    List (Directive × Nat) × List (Nat × Directive) ×
    List (Nat × List Nat) × List (Nat × List Nat) ×
    List (Nat × Nat) × List (Nat × Nat) × List Nat :=
  (p.events, p.spans, p.plan_directive_to_task, p.task_directives,
   p.task_children_called, p.task_children_spawned,
   p.task_parent_called, p.task_parent_spawned, p.deleted_tasks)

/-- The payload produced by running planA against modelAB. -/
def payloadA : Payload :=
  { events := [(10, .Atom ⟨.user "a", .vint 1, 0⟩)],
    spans := [(.dir ⟨"actA", 10, []⟩, 10, 10)],
    plan_directive_to_task := [(⟨"actA", 10, []⟩, 0)],
    task_directives := [(0, ⟨"actA", 10, []⟩)],
    task_children_called := [], task_children_spawned := [],
    task_parent_called := [], task_parent_spawned := [],
    deleted_tasks := [] }

/-- The payload produced by running planWR against modelWR. -/
def payloadWR : Payload :=
  { events := [(10, .Atom ⟨.user "p", .vint 1, 0⟩),
               (20, .Atom ⟨.readT, .vtopics [.user "p"], 1⟩)],
    spans := [(.dir ⟨"writerX", 10, []⟩, 10, 10),
              (.dir ⟨"readerY", 20, []⟩, 20, 20)],
    plan_directive_to_task := [(⟨"writerX", 10, []⟩, 0), (⟨"readerY", 20, []⟩, 1)],
    task_directives := [(0, ⟨"writerX", 10, []⟩), (1, ⟨"readerY", 20, []⟩)],
    task_children_called := [], task_children_spawned := [],
    task_parent_called := [], task_parent_spawned := [],
    deleted_tasks := [] }

/-- The payload produced by running planEC against modelCC: the emitter's
event at 10, and at 20 the called child's SPAWN, READ and FINISH followed by
the caller's synthetic READ of FINISH(2). -/
def payloadEC : Payload :=
  { events := [(10, .Atom ⟨.user "p", .vint 1, 0⟩),
               (20, .Sequentially
                  (.Sequentially
                    (.Sequentially (.Atom ⟨.spawnT, .vtask 2, 2⟩)
                      (.Atom ⟨.readT, .vtopics [.user "p"], 2⟩))
                    (.Atom ⟨.finishT 2, .vstr "FINISHED", 2⟩))
                  (.Atom ⟨.readT, .vtopics [.finishT 2], 1⟩))],
    spans := [(.dir ⟨"emitter", 10, []⟩, 10, 10),
              (.dir ⟨"calleeB", 20, []⟩, 20, 20),
              (.dir ⟨"callerA", 20, []⟩, 20, 20)],
    plan_directive_to_task := [(⟨"emitter", 10, []⟩, 0), (⟨"callerA", 20, []⟩, 1),
                               (⟨"calleeB", 20, []⟩, 2)],
    task_directives := [(0, ⟨"emitter", 10, []⟩), (1, ⟨"callerA", 20, []⟩),
                        (2, ⟨"calleeB", 20, []⟩)],
    task_children_called := [(1, [2])], task_children_spawned := [],
    task_parent_called := [(2, 1)], task_parent_spawned := [],
    deleted_tasks := [] }

/-- The full result of running planA against modelAB (from the run itself;
falls back to a dummy on error, which the run does not hit). -/
def resA : SimResult :=
  match simulateRun 20 modelAB planA none [] [] [] [] [] 0 with
  | .ok r => r
  | .error _ => ⟨[], [], payloadA, initEngine modelAB 0, []⟩

/-
  Theorems.  First general helper lemmas, then one theorem per claim
  (with witnesses and counterexamples where required).
-/

/-- Inversion of an ok-projection of a run result. -/
theorem okE_map_eq_some {α β : Type} {x : Except SimError α} {f : α → β} {v : β} :
    (okE x).map f = some v ↔ ∃ a, x = .ok a ∧ f a = v := by
  cases x <;> simp [okE]

/-- Inversion of okE against some. -/
theorem okE_eq_some {α : Type} {x : Except SimError α} {v : α} :
    okE x = some v ↔ x = .ok v := by
  cases x <;> simp [okE]

/-- Inversion of Except.bind against ok. -/
theorem except_bind_eq_ok {α β : Type} {x : Except SimError α}
    {f : α → Except SimError β} {b : β} :
    x.bind f = .ok b ↔ ∃ a, x = .ok a ∧ f a = .ok b := by
  cases x <;> simp [Except.bind]

/-- Inversion of monadic bind against ok. -/
theorem bindM_eq_ok {α β : Type} {x : Except SimError α}
    {f : α → Except SimError β} {b : β} :
    (x >>= f) = .ok b ↔ ∃ a, x = .ok a ∧ f a = .ok b := by
  cases x <;> simp [Bind.bind, Except.bind]

/-- A payload is determined by its field tuple. -/
theorem payloadFields_inj {p q : Payload} (h : payloadFields p = payloadFields q) :
    p = q := by
  cases p; cases q
  simp only [payloadFields, Prod.mk.injEq] at h
  simp_all

/-- When the analysis phase succeeds, simulate_incremental is its finish
phase on the analysis result. -/
theorem simulate_incremental_eq {fuel : Nat} {m : ModelT} {np op : Plan}
    {p : Payload} {A : IncAnalysis}
    (h : incrementalAnalysis fuel np op p = .ok A) :
    simulate_incremental fuel m np op p = incrementalFinish fuel m p A := by
  unfold simulate_incremental
  rw [h]
  rfl

/-- C1: the claim that simulate_incremental on (new plan, old plan, old
payload) returns spans and events equal to a full simulate of the new plan
fails on the code: adding actB at time 10 to a plan holding actA at time 10
makes the incremental run merge the retained entry as
conc(batch, old) = (b|a), while the full run records (a|b).  The spans
agree; the observable events differ, refuting the equivalence law the code
itself is specified and tested against. -/
theorem c1_incremental_full_divergence :
    (okE (simulateRun 20 modelAB planAB none [] [] [] [] [] 0)).map SimResult.events =
      some [(10, .Concurrently (.Atom ⟨.user "a", .vint 1, 0⟩) (.Atom ⟨.user "b", .vint 1, 1⟩))] ∧
    (okE ((simulateRun 20 modelAB planA none [] [] [] [] [] 0).bind
        (fun r => simulate_incremental 20 modelAB planAB planA r.payload))).map IncResult.events =
      some [(10, .Concurrently (.Atom ⟨.user "b", .vint 1, 1⟩) (.Atom ⟨.user "a", .vint 1, 0⟩))] ∧
    [((10 : Nat), EventGraph.Concurrently (.Atom ⟨.user "a", .vint 1, 0⟩) (.Atom ⟨.user "b", .vint 1, 1⟩))] ≠
      [((10 : Nat), EventGraph.Concurrently (.Atom ⟨.user "b", .vint 1, 1⟩) (.Atom ⟨.user "a", .vint 1, 0⟩))] := by
  refine ⟨rfl, ?_, by decide⟩
  have h1 : (okE (simulateRun 20 modelAB planA none [] [] [] [] [] 0)).map
      (fun r => payloadFields r.payload) = some (payloadFields payloadA) := rfl
  obtain ⟨r, hr, hpf⟩ := okE_map_eq_some.mp h1
  have hp : r.payload = payloadA := payloadFields_inj hpf
  have hb : (simulateRun 20 modelAB planA none [] [] [] [] [] 0).bind
      (fun r => simulate_incremental 20 modelAB planAB planA r.payload) =
      incrementalFinish 20 modelAB payloadA anA := by
    rw [hr]
    show simulate_incremental 20 modelAB planAB planA r.payload = _
    rw [hp]
    exact simulate_incremental_eq rfl
  rw [hb]
  exact (rfl :
    (okE (incrementalFinish 20 modelAB payloadA anA)).map IncResult.events =
      some [(10, .Concurrently (.Atom ⟨.user "b", .vint 1, 1⟩) (.Atom ⟨.user "a", .vint 1, 0⟩))])

/-- With an empty schedule (and some fuel) the simulate loop returns its
state unchanged. -/
theorem simLoop_empty {fuel : Nat} {ctx : SimCtx} {st : LoopSt}
    (h : st.eng.schedule.isEmpty = true) (hf : fuel ≠ 0) :
    simLoop fuel ctx st = .ok st := by
  cases fuel with
  | zero => exact absurd rfl hf
  | succ n =>
      unfold simLoop
      simp [h]

/-- A run of an empty plan invokes no activity. -/
theorem simulateRun_nil_invoked {fuel : Nat} {m : ModelT} {stop : Option Nat}
    {old : List (Nat × EventGraph)} {del : List Nat}
    {od : List (Nat × Directive)} {ops opc : List (Nat × Nat)}
    {idBase : Nat} {r : SimResult}
    (h : simulateRun fuel m ⟨[]⟩ stop old del od ops opc idBase = .ok r) :
    r.engine.invoked = [] := by
  cases fuel with
  | zero => simp [simulateRun] at h
  | succ n =>
      unfold simulateRun at h
      simp only [List.foldlM, pure_bind] at h
      obtain ⟨fin, hfin, hk⟩ := bindM_eq_ok.mp h
      cases n with
      | zero => simp [simLoop] at hfin
      | succ k =>
          rw [simLoop_empty (by rfl) (Nat.succ_ne_zero k)] at hfin
          cases hfin
          cases hk
          rfl

/-- C2 counterexample: for the remove-only diff taking planWR (a writer of
topic p at 10 and a reader of p at 20) to planR (the reader alone), the
diff deletes the writer and adds nothing, yet the incremental run invokes
the reader's activity function, because the reader's retained READ of p is
found stale.  This refutes "for a remove-only plan diff no activity
function is invoked at all". -/
theorem c2_remove_only_invokes_counterexample :
    (diffD planWR.directives planR.directives).2.1 = [⟨"writerX", 10, []⟩] ∧
    (diffD planWR.directives planR.directives).2.2 = [] ∧
    (okE ((simulateRun 20 modelWR planWR none [] [] [] [] [] 0).bind
        (fun r => simulate_incremental 20 modelWR planR planWR r.payload))).map IncResult.invoked =
      some [("readerY", [])] := by
  refine ⟨rfl, rfl, ?_⟩
  have h1 : (okE (simulateRun 20 modelWR planWR none [] [] [] [] [] 0)).map
      (fun r => payloadFields r.payload) = some (payloadFields payloadWR) := rfl
  obtain ⟨r, hr, hpf⟩ := okE_map_eq_some.mp h1
  have hp : r.payload = payloadWR := payloadFields_inj hpf
  have hb : (simulateRun 20 modelWR planWR none [] [] [] [] [] 0).bind
      (fun r => simulate_incremental 20 modelWR planR planWR r.payload) =
      incrementalFinish 20 modelWR payloadWR anWR := by
    rw [hr]
    show simulate_incremental 20 modelWR planR planWR r.payload = _
    rw [hp]
    exact simulate_incremental_eq rfl
  rw [hb]
  exact (rfl :
    (okE (incrementalFinish 20 modelWR payloadWR anWR)).map IncResult.invoked =
      some [("readerY", [])])

/-- C2 (amended): in every incremental run the directives submitted for
replay are exactly the added directives followed by the stale directives,
and when that replay set is empty (no additions and no stale tasks) no
activity function is invoked at all.  (A remove-only diff can have a
non-empty stale set and then does invoke activities; activities of call
and spawn descendants of replayed directives are also invoked.) -/
theorem c2_no_replay_no_invocation (fuel : Nat) (m : ModelT) (np op : Plan)
    (p : Payload) (A : IncAnalysis) (res : IncResult)
    (hA : incrementalAnalysis fuel np op p = .ok A)
    (hres : simulate_incremental fuel m np op p = .ok res) :
    A.directives_to_simulate = A.added_directives ++ A.stale_directives ∧
    (A.directives_to_simulate = [] → res.invoked = []) := by
  constructor
  · unfold incrementalAnalysis at hA
    obtain ⟨d0, _, hA⟩ := bindM_eq_ok.mp hA
    obtain ⟨d1, _, hA⟩ := bindM_eq_ok.mp hA
    obtain ⟨d2, _, hA⟩ := bindM_eq_ok.mp hA
    obtain ⟨d3, _, hA⟩ := bindM_eq_ok.mp hA
    cases hA
    rfl
  · intro hnil
    rw [simulate_incremental_eq hA] at hres
    unfold incrementalFinish at hres
    rw [hnil] at hres
    obtain ⟨rr, hrr, hk⟩ := bindM_eq_ok.mp hres
    have hi := simulateRun_nil_invoked hrr
    cases hk
    exact hi

/-- C2 witness: the amended statement at the identity diff of planA over
payloadA, where the replay set is empty and the incremental run invokes
nothing. -/
theorem c2_no_replay_no_invocation_witness :
    anA0.directives_to_simulate = anA0.added_directives ++ anA0.stale_directives ∧
    (anA0.directives_to_simulate = [] →
      (⟨[(.dir ⟨"actA", 10, []⟩, 10, 10)], [(10, .Atom ⟨.user "a", .vint 1, 0⟩)], []⟩ :
        IncResult).invoked = []) :=
  c2_no_replay_no_invocation 20 modelAB planA planA payloadA anA0
    ⟨[(.dir ⟨"actA", 10, []⟩, 10, 10)], [(10, .Atom ⟨.user "a", .vint 1, 0⟩)], []⟩
    rfl rfl

/-- C4: in the incremental driver's staleness analysis, a stale task whose
parent reached it via Call is NOT replaced by that parent: deleting the
emitter makes the called child (task 2, a Call child of task 1 per
task_parent_called) stale, the fixpoint also reaches the caller through its
synthetic READ of FINISH(2), and the replay set then contains BOTH
directives, including the Call child's.  Consequence at the failing input:
the child's directive is replayed standalone and again through its re-run
caller, so the incremental spans list the callee twice where the full run
lists it once. -/
theorem c4_call_child_directive_replayed :
    (okE ((simulateRun 20 modelCC planEC none [] [] [] [] [] 0).bind
        (fun r => (incrementalAnalysis 20 planC planEC r.payload).map
          (fun A => (A.stale_tasks, A.directives_to_simulate))))) =
      some ([2, 1], [⟨"calleeB", 20, []⟩, ⟨"callerA", 20, []⟩]) ∧
    (okE (simulateRun 20 modelCC planEC none [] [] [] [] [] 0)).map
      (fun r => r.payload.task_parent_called) = some [(2, 1)] ∧
    (okE ((simulateRun 20 modelCC planEC none [] [] [] [] [] 0).bind
        (fun r => simulate_incremental 20 modelCC planC planEC r.payload))).map IncResult.spans =
      some [(.dir ⟨"calleeB", 20, []⟩, 20, 20), (.dir ⟨"calleeB", 20, []⟩, 20, 20),
            (.dir ⟨"callerA", 20, []⟩, 20, 20)] ∧
    (okE (simulateRun 20 modelCC planC none [] [] [] [] [] 0)).map SimResult.spans =
      some [(.dir ⟨"calleeB", 20, []⟩, 20, 20), (.dir ⟨"callerA", 20, []⟩, 20, 20)] := by
  have h1 : (okE (simulateRun 20 modelCC planEC none [] [] [] [] [] 0)).map
      (fun r => payloadFields r.payload) = some (payloadFields payloadEC) := rfl
  obtain ⟨r, hr, hpf⟩ := okE_map_eq_some.mp h1
  have hp : r.payload = payloadEC := payloadFields_inj hpf
  refine ⟨?_, ?_, ?_, rfl⟩
  · rw [okE_eq_some, hr]
    show (incrementalAnalysis 20 planC planEC r.payload).map
        (fun A => (A.stale_tasks, A.directives_to_simulate)) = _
    rw [hp]
    rfl
  · rw [okE_map_eq_some]
    refine ⟨r, hr, ?_⟩
    rw [hp]
    rfl
  · have hb : (simulateRun 20 modelCC planEC none [] [] [] [] [] 0).bind
        (fun r => simulate_incremental 20 modelCC planC planEC r.payload) =
        incrementalFinish 20 modelCC payloadEC anEC := by
      rw [hr]
      show simulate_incremental 20 modelCC planC planEC r.payload = _
      rw [hp]
      exact simulate_incremental_eq rfl
    rw [hb]
    exact (rfl :
      (okE (incrementalFinish 20 modelCC payloadEC anEC)).map IncResult.spans =
        some [(.dir ⟨"calleeB", 20, []⟩, 20, 20), (.dir ⟨"calleeB", 20, []⟩, 20, 20),
              (.dir ⟨"callerA", 20, []⟩, 20, 20)])

/-- C6 counterexample: a retained history with two entries at time 5 does
NOT fail the run when the duplicate time lies strictly below every resume
time: both entries are drained verbatim and the run succeeds, refuting
"if the retained old_events list contains two entries with the same time,
the run fails with the DuplicateResumeTime hard error". -/
theorem c6_duplicates_drained_counterexample :
    dupOldEvents.map Prod.fst = [5, 5] ∧
    (okE (simulateRun 20 modelAB planA none dupOldEvents [] [] [] [] 0)).map SimResult.events =
      some [(5, .Atom ⟨.user "e1", .vint 1, 77⟩), (5, .Atom ⟨.user "e2", .vint 2, 78⟩),
            (10, .Atom ⟨.user "a", .vint 1, 0⟩)] :=
  ⟨rfl, rfl⟩

/-- The kernel's step operation restores the engine's current task frame:
whatever the status dispatch did (including Call recursion installing other
frames), the returned engine carries the frame that was current before the
call. -/
theorem stepRun_restores_frame {fuel : Nat} {eng : Engine} {now task : Nat}
    {fr : Frame} {e2 : Engine} {st : TaskStatus} {g : EventGraph}
    (h : stepRun fuel (.stepR eng now task fr) = .ok (.stepV e2 st g)) :
    e2.current_task_frame = eng.current_task_frame := by
  cases fuel with
  | zero => simp [stepRun] at h
  | succ n =>
      unfold stepRun at h
      obtain ⟨p1, h1, h⟩ := bindM_eq_ok.mp h
      obtain ⟨e1, st1⟩ := p1
      obtain ⟨p2, h2, h⟩ := bindM_eq_ok.mp h
      obtain ⟨e3, resuming⟩ := p2
      obtain ⟨p3, h3, h⟩ := bindM_eq_ok.mp h
      cases h
      rfl

/-- C10: for every task and frame, SimulationEngine.step leaves the
engine's current_task_frame equal to its value before the call, on every
successful status branch — the frame installed for the step is always
restored, so evaluating one task never redirects a concurrently pending
frame's emits. -/
theorem c10_step_restores_frame (fuel : Nat) (eng : Engine) (now task : Nat)
    (fr : Frame) (eng' : Engine) (st : TaskStatus) (g : EventGraph)
    (h : stepTask fuel eng now task fr = .ok (eng', st, g)) :
    eng'.current_task_frame = eng.current_task_frame := by
  unfold stepTask at h
  cases hs : stepRun fuel (.stepR eng now task fr) with
  | error e => rw [hs] at h; simp [asStep] at h
  | ok res =>
      rw [hs] at h
      cases res with
      | advV a b => simp [asStep] at h
      | engV a => simp [asStep] at h
      | stepV a b c =>
          simp only [asStep] at h
          cases h
          exact stepRun_restores_frame hs

/-- C10 witness: stepping a concrete one-emit task in a concrete engine
returns an engine whose current frame equals the one before the step. -/
theorem c10_step_restores_frame_witness :
    engW'.current_task_frame = engW.current_task_frame := by
  have h : stepTask 6 engW 10 0 frW =
      .ok (engW', .Completed, .Atom ⟨.user "a", .vint 1, 0⟩) := rfl
  exact c10_step_restores_frame 6 engW 10 0 frW engW' .Completed
    (.Atom ⟨.user "a", .vint 1, 0⟩) h

/-- Appending an empty batch does not change task membership. -/
theorem memTask_append_empty (l : List (Nat × List Nat)) (t task : Nat) :
    (JobSchedule.mk (l ++ [(t, [])])).memTask task =
      (JobSchedule.mk l).memTask task := by
  simp [JobSchedule.memTask]

/-- Lookup distributes over append. -/
theorem alookup_append {β : Type} (l1 l2 : List (Nat × β)) (k : Nat) :
    alookup (l1 ++ l2) k =
      (match alookup l1 k with
       | some v => some v
       | none => alookup l2 k) := by
  induction l1 with
  | nil => simp [alookup]
  | cons kv rest ih =>
      by_cases hk : kv.1 = k
      · simp [alookup, hk]
      · simp [alookup, hk, ih]

/-- Appending the task to every batch keyed t adds one occurrence of the
task per copy of the key. -/
theorem schedCount_addTask (l : List (Nat × List Nat)) (t task tk : Nat) :
    ((l.map (fun kv => if kv.1 = t then (kv.1, kv.2 ++ [task]) else kv)).map
        (fun kv => kv.2.count tk)).sum =
      (l.map (fun kv => kv.2.count tk)).sum +
        (l.map Prod.fst).count t * (if tk = task then 1 else 0) := by
  induction l with
  | nil => simp
  | cons kv rest ih =>
      simp only [List.map_cons, List.sum_cons]
      rw [ih]
      by_cases hkv : kv.1 = t <;> by_cases htk : tk = task <;>
        simp [hkv, htk, List.count_append, List.count_cons,
          List.count_singleton'] <;> omega

/-- Lookup in the task-appended entry list. -/
theorem alookup_addTask (l : List (Nat × List Nat)) (t task k : Nat) :
    alookup (l.map (fun kv => if kv.1 = t then (kv.1, kv.2 ++ [task]) else kv)) k =
      if k = t then (alookup l k).map (fun b => b ++ [task]) else alookup l k := by
  induction l with
  | nil => simp [alookup]
  | cons kv rest ih =>
      by_cases hkv : kv.1 = t
      · by_cases hk : kv.1 = k
        · have hkt : k = t := hk.symm.trans hkv
          simp [alookup, hkv, hk, hkt]
        · have htk : ¬t = k := fun h => hk (hkv.trans h)
          have hkt : ¬k = t := fun h => htk h.symm
          simp [alookup, hkv, hk, ih, htk, hkt]
      · by_cases hk : kv.1 = k
        · have hkt : ¬k = t := fun h => hkv (hk.trans h)
          simp [alookup, hkv, hk, hkt]
        · simp [alookup, hkv, hk, ih]

/-- A task absent from every batch has total count zero. -/
theorem memTask_false_count (l : List (Nat × List Nat)) (task : Nat)
    (h : (JobSchedule.mk l).memTask task = false) :
    (l.map (fun kv => kv.2.count task)).sum = 0 := by
  induction l with
  | nil => simp
  | cons kv rest ih =>
      simp only [JobSchedule.memTask, List.any_cons, Bool.or_eq_false_iff,
        decide_eq_false_iff_not] at h
      simp only [List.map_cons, List.sum_cons]
      rw [List.count_eq_zero.mpr h.1, ih (by simp [JobSchedule.memTask, h.2])]

/-- A successful lookup names a key of the list. -/
theorem alookup_isSome_mem {l : List (Nat × List Nat)} {k : Nat}
    (h : (alookup l k).isSome = true) : k ∈ l.map Prod.fst := by
  induction l with
  | nil => simp [alookup] at h
  | cons kv rest ih =>
      by_cases hk : kv.1 = k
      · simp [hk]
      · simp only [alookup, if_neg hk] at h
        simp [ih h]

/-- A failing lookup means the key is absent. -/
theorem alookup_none_not_mem {l : List (Nat × List Nat)} {k : Nat}
    (h : alookup l k = none) : k ∉ l.map Prod.fst := by
  induction l with
  | nil => simp
  | cons kv rest ih =>
      by_cases hk : kv.1 = k
      · simp [alookup, hk] at h
      · simp only [alookup, if_neg hk] at h
        simp [ih h, Ne.symm hk]

/-- The two-branch shape of JobSchedule.schedule: a conflict error when the
task is present anywhere, else the key-ensured entries with the task
appended at key t. -/
theorem schedule_shape (s : JobSchedule) (t task : Nat) :
    s.schedule t task =
      if s.memTask task = true then Except.error SimError.scheduleConflict
      else Except.ok ⟨((if (alookup s.entries t).isSome then s.entries
          else s.entries ++ [(t, [])]).map
        (fun kv => if kv.1 = t then (kv.1, kv.2 ++ [task]) else kv))⟩ := by
  unfold JobSchedule.schedule
  by_cases hpres : (alookup s.entries t).isSome
  · simp [hpres]
  · have : (JobSchedule.mk (s.entries ++ [(t, [])])).memTask task = s.memTask task := by
      rw [memTask_append_empty]
    simp [hpres, this]

/-- C7: JobSchedule.schedule(t, task) fails (with the schedule-conflict
error) exactly when the task already occurs in some batch at any time;
otherwise it appends the task to the batch at time t (other batches
unchanged), every task count grows by one exactly for this task, and the
task then appears exactly once in the schedule. -/
theorem c7_schedule_spec (s : JobSchedule) (t task : Nat)
    (hU : (s.entries.map Prod.fst).Nodup) :
    (s.schedule t task = .error .scheduleConflict ↔ s.memTask task = true) ∧
    ((∃ s', s.schedule t task = .ok s') ↔ s.memTask task = false) ∧
    (∀ s', s.schedule t task = .ok s' →
      alookup s'.entries t = some ((alookup s.entries t).getD [] ++ [task]) ∧
      (∀ u, u ≠ t → alookup s'.entries u = alookup s.entries u) ∧
      (∀ tk, schedCount s' tk = schedCount s tk + (if tk = task then 1 else 0)) ∧
      schedCount s' task = 1) := by
  rw [schedule_shape]
  by_cases hmem : s.memTask task = true
  · rw [if_pos hmem]
    refine ⟨⟨fun _ => hmem, fun _ => rfl⟩, ?_, ?_⟩
    · constructor
      · rintro ⟨s', hs'⟩
        cases hs'
      · intro hf
        rw [hmem] at hf
        cases hf
    · intro s' hs'
      cases hs'
  · have hmem' : s.memTask task = false := by
      cases hb : s.memTask task
      · rfl
      · exact absurd hb hmem
    rw [if_neg hmem]
    have hkey1 : ((if (alookup s.entries t).isSome then s.entries
        else s.entries ++ [(t, [])]).map Prod.fst).count t = 1 := by
      by_cases hpres : (alookup s.entries t).isSome
      · rw [if_pos hpres]
        exact List.count_eq_one_of_mem hU (alookup_isSome_mem hpres)
      · have hnone : alookup s.entries t = none := by
          cases ha : alookup s.entries t
          · rfl
          · rw [ha] at hpres; simp at hpres
        rw [if_neg hpres]
        simp only [List.map_append, List.count_append]
        rw [List.count_eq_zero.mpr (alookup_none_not_mem hnone)]
        simp
    have hlook : ∀ u, alookup (if (alookup s.entries t).isSome then s.entries
        else s.entries ++ [(t, [])]) u =
        (if u = t then some ((alookup s.entries t).getD []) else alookup s.entries u) := by
      intro u
      by_cases hpres : (alookup s.entries t).isSome
      · rw [if_pos hpres]
        obtain ⟨b, hb⟩ := Option.isSome_iff_exists.mp hpres
        by_cases hut : u = t
        · rw [if_pos hut, hut, hb]
          rfl
        · rw [if_neg hut]
      · have hnone : alookup s.entries t = none := by
          cases ha : alookup s.entries t
          · rfl
          · rw [ha] at hpres; simp at hpres
        rw [if_neg hpres, alookup_append]
        by_cases hut : u = t
        · rw [if_pos hut, hut, hnone]
          simp [alookup]
        · rw [if_neg hut]
          cases ha : alookup s.entries u
          · simp [alookup, Ne.symm hut]
          · rfl
    have hcnt : ∀ tk, ((if (alookup s.entries t).isSome then s.entries
        else s.entries ++ [(t, [])]).map (fun kv => kv.2.count tk)).sum =
        (s.entries.map (fun kv => kv.2.count tk)).sum := by
      intro tk
      by_cases hpres : (alookup s.entries t).isSome
      · rw [if_pos hpres]
      · rw [if_neg hpres]
        simp
    refine ⟨?_, ?_, ?_⟩
    · constructor
      · intro he
        cases he
      · intro hm
        rw [hm] at hmem'
        simp at hmem'
    · constructor
      · intro _
        exact hmem'
      · intro _
        exact ⟨_, rfl⟩
    · intro s' hs'
      cases hs'
      refine ⟨?_, ?_, ?_, ?_⟩
      · rw [alookup_addTask, if_pos rfl, hlook t, if_pos rfl]
        rfl
      · intro u hu
        rw [alookup_addTask, if_neg hu, hlook u, if_neg hu]
      · intro tk
        show ((_ : List (Nat × List Nat)).map _).sum = _
        rw [schedCount_addTask, hkey1]
        show _ = (s.entries.map (fun kv => kv.2.count tk)).sum + _
        rw [hcnt tk]
        simp
      · show ((_ : List (Nat × List Nat)).map _).sum = _
        rw [schedCount_addTask, hkey1, hcnt task]
        rw [memTask_false_count s.entries task hmem']
        simp

/-- C7 witness: scheduling a fresh task on a concrete one-batch schedule,
with the no-duplicate-keys hypothesis discharged concretely. -/
theorem c7_schedule_spec_witness :
    (JobSchedule.mk [(5, [1])]).schedule 7 2 = .error .scheduleConflict ↔
      (JobSchedule.mk [(5, [1])]).memTask 2 = true :=
  (c7_schedule_spec ⟨[(5, [1])]⟩ 7 2 (by decide)).1

/-- Atoms of a smart sequential composition. -/
theorem atoms_seqG (a b : EventGraph) :
    EventGraph.atomsList (EventGraph.seqG a b) =
      EventGraph.atomsList a ++ EventGraph.atomsList b := by
  cases a <;> cases b <;>
    simp [EventGraph.seqG, EventGraph.atomsList, EventGraph.toListProj]

/-- Atoms of a smart concurrent composition. -/
theorem atoms_concG (a b : EventGraph) :
    EventGraph.atomsList (EventGraph.concG a b) =
      EventGraph.atomsList a ++ EventGraph.atomsList b := by
  cases a <;> cases b <;>
    simp [EventGraph.concG, EventGraph.atomsList, EventGraph.toListProj]

/-- The atoms of a filtered graph are exactly the filtered atoms, in
order. -/
theorem atoms_filterP (p : Event → Bool) (g : EventGraph) :
    EventGraph.atomsList (EventGraph.filterP p g) =
      (EventGraph.atomsList g).filter p := by
  induction g with
  | Empty => simp [EventGraph.filterP, EventGraph.atomsList, EventGraph.toListProj]
  | Atom e =>
      by_cases hp : p e <;>
        simp [EventGraph.filterP, EventGraph.atomsList, EventGraph.toListProj, hp]
  | Sequentially a b iha ihb =>
      show EventGraph.atomsList (EventGraph.seqG _ _) =
        (EventGraph.atomsList a ++ EventGraph.atomsList b).filter p
      rw [atoms_seqG, iha, ihb, List.filter_append]
  | Concurrently a b iha ihb =>
      show EventGraph.atomsList (EventGraph.concG _ _) =
        (EventGraph.atomsList a ++ EventGraph.atomsList b).filter p
      rw [atoms_concG, iha, ihb, List.filter_append]

/-- The events a run returns are exactly its recorded history without the
special events. -/
theorem simulateRun_events_shape {fuel : Nat} {m : ModelT} {plan : Plan}
    {stop : Option Nat} {old : List (Nat × EventGraph)} {del : List Nat}
    {od : List (Nat × Directive)} {ops opc : List (Nat × Nat)}
    {idBase : Nat} {r : SimResult}
    (h : simulateRun fuel m plan stop old del od ops opc idBase = .ok r) :
    r.events = withoutSpecialEvents r.payload.events := by
  cases fuel with
  | zero => simp [simulateRun] at h
  | succ n =>
      unfold simulateRun at h
      obtain ⟨eng, h1, h⟩ := bindM_eq_ok.mp h
      obtain ⟨fin, h2, h⟩ := bindM_eq_ok.mp h
      cases h
      rfl

/-- C9: the events returned by simulate contain no atom with a reserved
topic (READ, SPAWN or FINISH(t)), and without_special_events removes
exactly the reserved-topic atoms from every entry, preserving the other
atoms in their original order. -/
theorem c9_without_special_exact :
    (∀ (fuel : Nat) (m : ModelT) (plan : Plan) (stop : Option Nat)
        (old : List (Nat × EventGraph)) (del : List Nat)
        (od : List (Nat × Directive)) (ops opc : List (Nat × Nat))
        (idBase : Nat) (r : SimResult),
      simulateRun fuel m plan stop old del od ops opc idBase = .ok r →
      ∀ se ∈ r.events, ∀ e ∈ EventGraph.atomsList se.2,
        isSpecialTopic e.topic = false) ∧
    (∀ g : EventGraph,
      EventGraph.atomsList (EventGraph.filterP (fun e => !isSpecialTopic e.topic) g) =
        (EventGraph.atomsList g).filter (fun e => !isSpecialTopic e.topic)) := by
  refine ⟨?_, fun g => atoms_filterP _ g⟩
  intro fuel m plan stop old del od ops opc idBase r h se hse e he
  rw [simulateRun_events_shape h] at hse
  obtain ⟨se₀, _, hse₂⟩ := List.mem_filterMap.mp hse
  by_cases hf : EventGraph.filterP (fun e => !isSpecialTopic e.topic) se₀.2 =
      EventGraph.Empty
  · rw [if_pos hf] at hse₂
    cases hse₂
  · rw [if_neg hf] at hse₂
    cases hse₂.symm
    have he' : e ∈ (EventGraph.atomsList se₀.2).filter
        (fun e => !isSpecialTopic e.topic) := by
      rw [← atoms_filterP]
      exact he
    have := List.of_mem_filter he'
    simpa using this

/-- C9 witness: the run of planEC produces an event history whose
single returned entry carries only the user topic p — the called child's
SPAWN, READ and FINISH atoms are all removed. -/
theorem c9_without_special_exact_witness :
    ∀ se ∈ [((10 : Nat), EventGraph.Atom ⟨.user "p", .vint 1, 0⟩)],
      ∀ e ∈ EventGraph.atomsList se.2, isSpecialTopic e.topic = false := by
  have hrun : simulateRun 20 modelCC planEC none [] [] [] [] [] 0 =
      .ok (match simulateRun 20 modelCC planEC none [] [] [] [] [] 0 with
           | .ok r => r
           | .error _ => ⟨[], [], payloadEC, initEngine modelCC 0, []⟩) := rfl
  have hev : (match simulateRun 20 modelCC planEC none [] [] [] [] [] 0 with
      | .ok r => r
      | .error _ => (⟨[], [], payloadEC, initEngine modelCC 0, []⟩ : SimResult)).events =
      [((10 : Nat), EventGraph.Atom ⟨.user "p", .vint 1, 0⟩)] := rfl
  rw [← hev]
  exact c9_without_special_exact.1 20 modelCC planEC none [] [] [] [] [] 0 _ hrun

/-- Membership in a deduplicating append. -/
theorem mem_dedupAppend {α : Type} [DecidableEq α] (l acc : List α) (x : α) :
    x ∈ dedupAppend acc l ↔ x ∈ acc ∨ x ∈ l := by
  induction l generalizing acc with
  | nil => simp [dedupAppend]
  | cons y ys ih =>
      show x ∈ dedupAppend (if y ∈ acc then acc else acc ++ [y]) ys ↔ _
      rw [ih]
      by_cases hy : y ∈ acc
      · simp only [if_pos hy, List.mem_cons]
        constructor
        · rintro (h | h)
          · exact Or.inl h
          · exact Or.inr (Or.inr h)
        · rintro (h | h | h)
          · exact Or.inl h
          · exact Or.inl (h ▸ hy)
          · exact Or.inr h
      · simp only [if_neg hy, List.mem_append, List.mem_singleton, List.mem_cons]
        tauto

/-- Membership in a topic union. -/
theorem mem_topicUnion (a b : List Topic) (t : Topic) :
    t ∈ topicUnion a b ↔ t ∈ a ∨ t ∈ b :=
  mem_dedupAppend b a t

/-- The second projections of the occurrences are the atoms in order. -/
theorem occs_snd (g : EventGraph) :
    (occs g).map Prod.snd = EventGraph.atomsList g := by
  induction g with
  | Empty => rfl
  | Atom e => rfl
  | Sequentially a b iha ihb =>
      show ((occs a).map _ ++ (occs b).map _).map Prod.snd =
        EventGraph.atomsList a ++ EventGraph.atomsList b
      rw [List.map_append, List.map_map, List.map_map]
      rw [← iha, ← ihb]
      rfl
  | Concurrently a b iha ihb =>
      show ((occs a).map _ ++ (occs b).map _).map Prod.snd =
        EventGraph.atomsList a ++ EventGraph.atomsList b
      rw [List.map_append, List.map_map, List.map_map]
      rw [← iha, ← ihb]
      rfl

/-- The non-READ topics of a sequential node. -/
theorem nonReadTopics_seq (a b : EventGraph) :
    nonReadTopics (.Sequentially a b) = nonReadTopics a ++ nonReadTopics b := by
  show (((EventGraph.atomsList a ++ EventGraph.atomsList b).filter _).map _) = _
  rw [List.filter_append, List.map_append]
  rfl

/-- The non-READ topics of a concurrent node. -/
theorem nonReadTopics_conc (a b : EventGraph) :
    nonReadTopics (.Concurrently a b) = nonReadTopics a ++ nonReadTopics b := by
  show (((EventGraph.atomsList a ++ EventGraph.atomsList b).filter _).map _) = _
  rw [List.filter_append, List.map_append]
  rfl

/-- The accumulated topics returned by the walk are the incoming set plus
the graph's non-READ topics. -/
theorem helper_snd_mem (g : EventGraph) (S : List Topic) (t : Topic) :
    t ∈ (get_stale_reads_helper g S).2 ↔ t ∈ S ∨ t ∈ nonReadTopics g := by
  induction g generalizing S with
  | Empty => simp [get_stale_reads_helper, nonReadTopics, EventGraph.atomsList,
      EventGraph.toListProj]
  | Atom e =>
      by_cases hr : e.topic = Topic.readT
      · by_cases hi : (valTopics e.value).any (fun u => decide (u ∈ S))
        · simp [get_stale_reads_helper, hr, hi, nonReadTopics,
            EventGraph.atomsList, EventGraph.toListProj]
        · simp [get_stale_reads_helper, hr, hi, nonReadTopics,
            EventGraph.atomsList, EventGraph.toListProj]
      · simp [get_stale_reads_helper, hr, mem_topicUnion, nonReadTopics,
          EventGraph.atomsList, EventGraph.toListProj]
  | Sequentially a b iha ihb =>
      show t ∈ topicUnion (get_stale_reads_helper a S).2
        (get_stale_reads_helper b
          (topicUnion S (get_stale_reads_helper a S).2)).2 ↔ _
      rw [mem_topicUnion, iha, ihb, mem_topicUnion, iha, nonReadTopics_seq]
      simp only [List.mem_append]
      tauto
  | Concurrently a b iha ihb =>
      show t ∈ topicUnion (get_stale_reads_helper a S).2
        (get_stale_reads_helper b S).2 ↔ _
      rw [mem_topicUnion, iha, ihb, nonReadTopics_conc]
      simp only [List.mem_append]
      tauto

/-- Pointwise-equal predicates have equal any. -/
theorem any_congrB {α : Type} {l : List α} {p q : α → Bool}
    (h : ∀ x ∈ l, p x = q x) : l.any p = l.any q := by
  induction l with
  | nil => rfl
  | cons x xs ih =>
      simp only [List.any_cons]
      rw [h x (by simp), ih (fun y hy => h y (by simp [hy]))]

/-- Pointwise-equal selectors have equal filterMap. -/
theorem filterMap_congrB {α β : Type} {l : List α} {f g : α → Option β}
    (h : ∀ x ∈ l, f x = g x) : l.filterMap f = l.filterMap g := by
  induction l with
  | nil => rfl
  | cons x xs ih =>
      rw [List.filterMap_cons, List.filterMap_cons, h x (by simp),
        ih (fun y hy => h y (by simp [hy]))]

/-- Whether some non-READ atom of the graph carries topic t, stated over
occurrences. -/
theorem nonRead_any (g : EventGraph) (t : Topic) :
    (occs g).any (fun pe =>
      !decide (pe.2.topic = Topic.readT) && decide (pe.2.topic = t)) =
      decide (t ∈ nonReadTopics g) := by
  rcases hb : (occs g).any (fun pe =>
      !decide (pe.2.topic = Topic.readT) && decide (pe.2.topic = t)) with _ | _
  · obtain h2 := List.any_eq_false.mp hb
    have hnot : ¬ t ∈ nonReadTopics g := by
      intro hm
      obtain ⟨e, he, het⟩ := List.mem_map.mp hm
      have he' := (List.mem_filter.mp he).1
      have hfr := (List.mem_filter.mp he).2
      rw [← occs_snd] at he'
      obtain ⟨pe, hpe, hpee⟩ := List.mem_map.mp he'
      have hf := h2 pe hpe
      rw [hpee] at hf
      have h3 : (!decide (e.topic = Topic.readT) && decide (e.topic = t)) = true := by
        rw [Bool.and_eq_true]
        exact ⟨hfr, by simp [het]⟩
      exact hf h3
    simp [hnot]
  · obtain ⟨pe, hpe, hQ⟩ := List.any_eq_true.mp hb
    have hmem : pe.2 ∈ EventGraph.atomsList g := by
      rw [← occs_snd]
      exact List.mem_map.mpr ⟨pe, hpe, rfl⟩
    rw [Bool.and_eq_true] at hQ
    have ht : t ∈ nonReadTopics g := by
      apply List.mem_map.mpr
      refine ⟨pe.2, List.mem_filter.mpr ⟨hmem, hQ.1⟩, ?_⟩
      exact of_decide_eq_true hQ.2
    simp [ht]

/-- Happens-before from the left side of a Sequentially to an occurrence in
its suffix always holds. -/
theorem hb_seq_LR (a b : EventGraph) (p q : List Dir2) :
    hbBefore (.Sequentially a b) (Dir2.left :: p) (Dir2.right :: q) = true := rfl

/-- Happens-before within the prefix of a Sequentially. -/
theorem hb_seq_LL (a b : EventGraph) (p q : List Dir2) :
    hbBefore (.Sequentially a b) (Dir2.left :: p) (Dir2.left :: q) =
      hbBefore a p q := rfl

/-- Happens-before within the suffix of a Sequentially. -/
theorem hb_seq_RR (a b : EventGraph) (p q : List Dir2) :
    hbBefore (.Sequentially a b) (Dir2.right :: p) (Dir2.right :: q) =
      hbBefore b p q := rfl

/-- No happens-before from the suffix back into the prefix. -/
theorem hb_seq_RL (a b : EventGraph) (p q : List Dir2) :
    hbBefore (.Sequentially a b) (Dir2.right :: p) (Dir2.left :: q) = false := rfl

/-- Happens-before within the left side of a Concurrently. -/
theorem hb_conc_LL (a b : EventGraph) (p q : List Dir2) :
    hbBefore (.Concurrently a b) (Dir2.left :: p) (Dir2.left :: q) =
      hbBefore a p q := rfl

/-- Happens-before within the right side of a Concurrently. -/
theorem hb_conc_RR (a b : EventGraph) (p q : List Dir2) :
    hbBefore (.Concurrently a b) (Dir2.right :: p) (Dir2.right :: q) =
      hbBefore b p q := rfl

/-- No happens-before across the two sides of a Concurrently. -/
theorem hb_conc_LR (a b : EventGraph) (p q : List Dir2) :
    hbBefore (.Concurrently a b) (Dir2.left :: p) (Dir2.right :: q) = false := rfl

/-- No happens-before across the two sides of a Concurrently, reversed. -/
theorem hb_conc_RL (a b : EventGraph) (p q : List Dir2) :
    hbBefore (.Concurrently a b) (Dir2.right :: p) (Dir2.left :: q) = false := rfl

/-- Topics before a prefix occurrence of a Sequentially come from the
prefix alone. -/
theorem beforeTopicMem_seq_left (a b : EventGraph) (q : List Dir2) (t : Topic) :
    beforeTopicMem (.Sequentially a b) (Dir2.left :: q) t =
      beforeTopicMem a q t := by
  show (((occs a).map _ ++ (occs b).map _).any _) = _
  rw [List.any_append, List.any_map, List.any_map]
  have h2 : ((occs b).any fun pe =>
      hbBefore (.Sequentially a b) (Dir2.right :: pe.1) (Dir2.left :: q) &&
        !decide (pe.2.topic = Topic.readT) && decide (pe.2.topic = t)) = false := by
    apply List.any_eq_false.mpr
    intro x _
    simp [hb_seq_RL]
  show (((occs a).any fun pe =>
      hbBefore (.Sequentially a b) (Dir2.left :: pe.1) (Dir2.left :: q) &&
        !decide (pe.2.topic = Topic.readT) && decide (pe.2.topic = t)) ||
      ((occs b).any fun pe =>
      hbBefore (.Sequentially a b) (Dir2.right :: pe.1) (Dir2.left :: q) &&
        !decide (pe.2.topic = Topic.readT) && decide (pe.2.topic = t))) = _
  rw [h2, Bool.or_false]
  apply any_congrB
  intro x _
  rw [hb_seq_LL]

/-- Topics before a suffix occurrence of a Sequentially: every non-READ
topic of the prefix, plus whatever is before it within the suffix. -/
theorem beforeTopicMem_seq_right (a b : EventGraph) (q : List Dir2) (t : Topic) :
    beforeTopicMem (.Sequentially a b) (Dir2.right :: q) t =
      (decide (t ∈ nonReadTopics a) || beforeTopicMem b q t) := by
  show (((occs a).map _ ++ (occs b).map _).any _) = _
  rw [List.any_append, List.any_map, List.any_map]
  have h1 : ((occs a).any fun pe =>
      hbBefore (.Sequentially a b) (Dir2.left :: pe.1) (Dir2.right :: q) &&
        !decide (pe.2.topic = Topic.readT) && decide (pe.2.topic = t)) =
      decide (t ∈ nonReadTopics a) := by
    rw [← nonRead_any a t]
    apply any_congrB
    intro x _
    rw [hb_seq_LR]
    simp
  have h2 : ((occs b).any fun pe =>
      hbBefore (.Sequentially a b) (Dir2.right :: pe.1) (Dir2.right :: q) &&
        !decide (pe.2.topic = Topic.readT) && decide (pe.2.topic = t)) =
      beforeTopicMem b q t := by
    apply any_congrB
    intro x _
    rw [hb_seq_RR]
  show (((occs a).any fun pe =>
      hbBefore (.Sequentially a b) (Dir2.left :: pe.1) (Dir2.right :: q) &&
        !decide (pe.2.topic = Topic.readT) && decide (pe.2.topic = t)) ||
      ((occs b).any fun pe =>
      hbBefore (.Sequentially a b) (Dir2.right :: pe.1) (Dir2.right :: q) &&
        !decide (pe.2.topic = Topic.readT) && decide (pe.2.topic = t))) = _
  rw [h1, h2]

/-- Topics before a left occurrence of a Concurrently come from the left
side alone: the right sibling is invisible. -/
theorem beforeTopicMem_conc_left (a b : EventGraph) (q : List Dir2) (t : Topic) :
    beforeTopicMem (.Concurrently a b) (Dir2.left :: q) t =
      beforeTopicMem a q t := by
  show (((occs a).map _ ++ (occs b).map _).any _) = _
  rw [List.any_append, List.any_map, List.any_map]
  have h2 : ((occs b).any fun pe =>
      hbBefore (.Concurrently a b) (Dir2.right :: pe.1) (Dir2.left :: q) &&
        !decide (pe.2.topic = Topic.readT) && decide (pe.2.topic = t)) = false := by
    apply List.any_eq_false.mpr
    intro x _
    simp [hb_conc_RL]
  show (((occs a).any fun pe =>
      hbBefore (.Concurrently a b) (Dir2.left :: pe.1) (Dir2.left :: q) &&
        !decide (pe.2.topic = Topic.readT) && decide (pe.2.topic = t)) ||
      ((occs b).any fun pe =>
      hbBefore (.Concurrently a b) (Dir2.right :: pe.1) (Dir2.left :: q) &&
        !decide (pe.2.topic = Topic.readT) && decide (pe.2.topic = t))) = _
  rw [h2, Bool.or_false]
  apply any_congrB
  intro x _
  rw [hb_conc_LL]

/-- Topics before a right occurrence of a Concurrently come from the right
side alone: the left sibling is invisible. -/
theorem beforeTopicMem_conc_right (a b : EventGraph) (q : List Dir2) (t : Topic) :
    beforeTopicMem (.Concurrently a b) (Dir2.right :: q) t =
      beforeTopicMem b q t := by
  show (((occs a).map _ ++ (occs b).map _).any _) = _
  rw [List.any_append, List.any_map, List.any_map]
  have h1 : ((occs a).any fun pe =>
      hbBefore (.Concurrently a b) (Dir2.left :: pe.1) (Dir2.right :: q) &&
        !decide (pe.2.topic = Topic.readT) && decide (pe.2.topic = t)) = false := by
    apply List.any_eq_false.mpr
    intro x _
    simp [hb_conc_LR]
  show (((occs a).any fun pe =>
      hbBefore (.Concurrently a b) (Dir2.left :: pe.1) (Dir2.right :: q) &&
        !decide (pe.2.topic = Topic.readT) && decide (pe.2.topic = t)) ||
      ((occs b).any fun pe =>
      hbBefore (.Concurrently a b) (Dir2.right :: pe.1) (Dir2.right :: q) &&
        !decide (pe.2.topic = Topic.readT) && decide (pe.2.topic = t))) = _
  rw [h1, Bool.false_or]
  apply any_congrB
  intro x _
  rw [hb_conc_RR]

/-- The stale-read specification only depends on the membership of the
seed set. -/
theorem staleReadsSpec_seed_congr (g : EventGraph) (S1 S2 : List Topic)
    (h : ∀ t, t ∈ S1 ↔ t ∈ S2) : staleReadsSpec g S1 = staleReadsSpec g S2 := by
  apply filterMap_congrB
  intro qe _
  have hc : ((valTopics qe.2.value).any
      (fun t => decide (t ∈ S1) || beforeTopicMem g qe.1 t)) =
      ((valTopics qe.2.value).any
      (fun t => decide (t ∈ S2) || beforeTopicMem g qe.1 t)) := by
    apply any_congrB
    intro u _
    rw [decide_eq_decide.mpr (h u)]
  show (if decide (qe.2.topic = Topic.readT) &&
      (valTopics qe.2.value).any
        (fun t => decide (t ∈ S1) || beforeTopicMem g qe.1 t)
    then some qe.2 else none) =
    (if decide (qe.2.topic = Topic.readT) &&
      (valTopics qe.2.value).any
        (fun t => decide (t ∈ S2) || beforeTopicMem g qe.1 t)
    then some qe.2 else none)
  rw [hc]

/-- filterMap on a singleton is the selector's optional value. -/
theorem filterMap_singleton {α β : Type} (f : α → Option β) (a : α) :
    List.filterMap f [a] = (f a).toList := by
  rcases h : f a with _ | b <;> simp [List.filterMap_cons, h]

/-- The event list returned by the walk is exactly the happens-before
specification of the stale reads. -/
theorem helper_fst_spec (g : EventGraph) (S : List Topic) :
    (get_stale_reads_helper g S).1 = staleReadsSpec g S := by
  induction g generalizing S with
  | Empty => rfl
  | Atom e =>
      have hany : ((valTopics e.value).any
          (fun t => decide (t ∈ S) || beforeTopicMem (.Atom e) [] t)) =
          ((valTopics e.value).any (fun t => decide (t ∈ S))) := by
        apply any_congrB
        intro u _
        show (decide (u ∈ S) || false) = decide (u ∈ S)
        rw [Bool.or_false]
      have hspec : staleReadsSpec (.Atom e) S =
          (if (decide (e.topic = Topic.readT) &&
              (valTopics e.value).any (fun t => decide (t ∈ S)))
           then [e] else []) := by
        show List.filterMap _ [(([] : List Dir2), e)] = _
        rw [filterMap_singleton]
        show (if decide (e.topic = Topic.readT) &&
            (valTopics e.value).any
              (fun t => decide (t ∈ S) || beforeTopicMem (.Atom e) [] t)
          then some e else none).toList = _
        rw [hany]
        rcases hc : (decide (e.topic = Topic.readT) &&
            (valTopics e.value).any (fun t => decide (t ∈ S))) with _ | _
        · rfl
        · rfl
      have hhelp : (get_stale_reads_helper (.Atom e) S).1 =
          (if (decide (e.topic = Topic.readT) &&
              (valTopics e.value).any (fun t => decide (t ∈ S)))
           then [e] else []) := by
        show (if e.topic = Topic.readT then
            (if (valTopics e.value).any (fun t => decide (t ∈ S))
             then ([e], S) else ([], S))
          else ([], topicUnion S [e.topic])).1 = _
        by_cases hr : e.topic = Topic.readT
        · rw [if_pos hr, decide_eq_true hr]
          rcases hi : ((valTopics e.value).any fun t => decide (t ∈ S)) with _ | _
          · rfl
          · rfl
        · rw [if_neg hr, decide_eq_false hr]
          rfl
      rw [hhelp, hspec]
  | Sequentially a b iha ihb =>
      show (get_stale_reads_helper a S).1 ++
          (get_stale_reads_helper b
            (topicUnion S (get_stale_reads_helper a S).2)).1 = _
      rw [iha, ihb]
      show _ = List.filterMap _
        ((occs a).map (fun pe => (Dir2.left :: pe.1, pe.2)) ++
          (occs b).map (fun pe => (Dir2.right :: pe.1, pe.2)))
      rw [List.filterMap_append, List.filterMap_map, List.filterMap_map]
      congr 1
      · apply filterMap_congrB
        intro qe _
        have hcond : ((valTopics qe.2.value).any
            (fun t => decide (t ∈ S) || beforeTopicMem a qe.1 t)) =
            ((valTopics qe.2.value).any
            (fun t => decide (t ∈ S) ||
              beforeTopicMem (.Sequentially a b) (Dir2.left :: qe.1) t)) := by
          apply any_congrB
          intro u _
          rw [beforeTopicMem_seq_left]
        show (if decide (qe.2.topic = Topic.readT) &&
            (valTopics qe.2.value).any
              (fun t => decide (t ∈ S) || beforeTopicMem a qe.1 t)
          then some qe.2 else none) =
          (if decide (qe.2.topic = Topic.readT) &&
            (valTopics qe.2.value).any
              (fun t => decide (t ∈ S) ||
                beforeTopicMem (.Sequentially a b) (Dir2.left :: qe.1) t)
          then some qe.2 else none)
        rw [hcond]
      · have hseed : ∀ u : Topic,
            decide (u ∈ topicUnion S (get_stale_reads_helper a S).2) =
            (decide (u ∈ S) || decide (u ∈ nonReadTopics a)) := by
          intro u
          have hiff : u ∈ topicUnion S (get_stale_reads_helper a S).2 ↔
              u ∈ S ∨ u ∈ nonReadTopics a := by
            rw [mem_topicUnion, helper_snd_mem]
            tauto
          rw [decide_eq_decide.mpr hiff, Bool.decide_or]
        apply filterMap_congrB
        intro qe _
        have hcond : ((valTopics qe.2.value).any
            (fun t =>
              decide (t ∈ topicUnion S (get_stale_reads_helper a S).2) ||
                beforeTopicMem b qe.1 t)) =
            ((valTopics qe.2.value).any
            (fun t => decide (t ∈ S) ||
              beforeTopicMem (.Sequentially a b) (Dir2.right :: qe.1) t)) := by
          apply any_congrB
          intro u _
          rw [beforeTopicMem_seq_right, hseed u, Bool.or_assoc]
        show (if decide (qe.2.topic = Topic.readT) &&
            (valTopics qe.2.value).any
              (fun t =>
                decide (t ∈ topicUnion S (get_stale_reads_helper a S).2) ||
                  beforeTopicMem b qe.1 t)
          then some qe.2 else none) =
          (if decide (qe.2.topic = Topic.readT) &&
            (valTopics qe.2.value).any
              (fun t => decide (t ∈ S) ||
                beforeTopicMem (.Sequentially a b) (Dir2.right :: qe.1) t)
          then some qe.2 else none)
        rw [hcond]
  | Concurrently a b iha ihb =>
      show (get_stale_reads_helper a S).1 ++ (get_stale_reads_helper b S).1 = _
      rw [iha, ihb]
      show _ = List.filterMap _
        ((occs a).map (fun pe => (Dir2.left :: pe.1, pe.2)) ++
          (occs b).map (fun pe => (Dir2.right :: pe.1, pe.2)))
      rw [List.filterMap_append, List.filterMap_map, List.filterMap_map]
      congr 1
      · apply filterMap_congrB
        intro qe _
        have hcond : ((valTopics qe.2.value).any
            (fun t => decide (t ∈ S) || beforeTopicMem a qe.1 t)) =
            ((valTopics qe.2.value).any
            (fun t => decide (t ∈ S) ||
              beforeTopicMem (.Concurrently a b) (Dir2.left :: qe.1) t)) := by
          apply any_congrB
          intro u _
          rw [beforeTopicMem_conc_left]
        show (if decide (qe.2.topic = Topic.readT) &&
            (valTopics qe.2.value).any
              (fun t => decide (t ∈ S) || beforeTopicMem a qe.1 t)
          then some qe.2 else none) =
          (if decide (qe.2.topic = Topic.readT) &&
            (valTopics qe.2.value).any
              (fun t => decide (t ∈ S) ||
                beforeTopicMem (.Concurrently a b) (Dir2.left :: qe.1) t)
          then some qe.2 else none)
        rw [hcond]
      · apply filterMap_congrB
        intro qe _
        have hcond : ((valTopics qe.2.value).any
            (fun t => decide (t ∈ S) || beforeTopicMem b qe.1 t)) =
            ((valTopics qe.2.value).any
            (fun t => decide (t ∈ S) ||
              beforeTopicMem (.Concurrently a b) (Dir2.right :: qe.1) t)) := by
          apply any_congrB
          intro u _
          rw [beforeTopicMem_conc_right]
        show (if decide (qe.2.topic = Topic.readT) &&
            (valTopics qe.2.value).any
              (fun t => decide (t ∈ S) || beforeTopicMem b qe.1 t)
          then some qe.2 else none) =
          (if decide (qe.2.topic = Topic.readT) &&
            (valTopics qe.2.value).any
              (fun t => decide (t ∈ S) ||
                beforeTopicMem (.Concurrently a b) (Dir2.right :: qe.1) t)
          then some qe.2 else none)
        rw [hcond]

/-- C3: for every event graph g and initial topic set S,
get_stale_reads_helper g S returns exactly the READ atoms whose topic list
meets S or the topics of the non-READ atoms strictly before them in
happens-before order — sequential prefixes feed their topics to suffixes,
while atoms on the two sides of a Concurrently node contribute nothing to
each other — together with the incoming topic set extended by the graph's
non-READ topics. -/
theorem c3_get_stale_reads_helper_exact (g : EventGraph) (S : List Topic) :
    (get_stale_reads_helper g S).1 = staleReadsSpec g S ∧
      (∀ t, t ∈ (get_stale_reads_helper g S).2 ↔ t ∈ S ∨ t ∈ nonReadTopics g) :=
  ⟨helper_fst_spec g S, fun t => helper_snd_mem g S t⟩

/-- C8: TaskFrame.collect folds the branches right to left from the tip,
producing seq(b1, conc(c1, seq(b2, conc(c2, ... tip)))) — stated both as
the general right fold and unfolded on a two-branch frame. -/
theorem c8_collect_foldr :
    (∀ fr : Frame, fr.collect =
      fr.branches.foldr
        (fun b rest => EventGraph.seqG b.1 (EventGraph.concG b.2 rest)) fr.tip) ∧
    (∀ (t : Nat) (tk : Option Nat) (tip : EventGraph)
        (hist : List (Nat × EventGraph)) (b1 c1 b2 c2 : EventGraph),
      (Frame.mk t tk tip hist [(b1, c1), (b2, c2)]).collect =
        EventGraph.seqG b1 (EventGraph.concG c1
          (EventGraph.seqG b2 (EventGraph.concG c2 tip)))) := by
  constructor
  · intro fr
    simp [Frame.collect, List.foldl_reverse]
  · intro t tk tip hist b1 c1 b2 c2
    simp [Frame.collect]

/-- Pointwise-equal functions have equal map. -/
theorem map_congrB {α β : Type} {l : List α} {f g : α → β}
    (h : ∀ x ∈ l, f x = g x) : l.map f = l.map g := by
  induction l with
  | nil => rfl
  | cons x xs ih =>
      rw [List.map_cons, List.map_cons, h x (by simp),
        ih (fun y hy => h y (by simp [hy]))]

/-- A fold of min is below its seed and every listed key. -/
theorem foldlMin_le (l : List (Nat × List Nat)) (a : Nat) :
    (l.foldl (fun m e => min m e.1) a) ≤ a ∧
      ∀ kv ∈ l, (l.foldl (fun m e => min m e.1) a) ≤ kv.1 := by
  induction l generalizing a with
  | nil =>
      refine ⟨Nat.le_refl a, ?_⟩
      intro kv h
      cases h
  | cons x xs ih =>
      simp only [List.foldl_cons]
      obtain ⟨h1, h2⟩ := ih (min a x.1)
      refine ⟨Nat.le_trans h1 (Nat.min_le_left _ _), ?_⟩
      intro kv hkv
      rcases List.mem_cons.mp hkv with hk | hk
      · rw [hk]
        exact Nat.le_trans h1 (Nat.min_le_right _ _)
      · exact h2 kv hk

/-- A fold of min returns its seed or one of the listed keys. -/
theorem foldlMin_mem (l : List (Nat × List Nat)) (a : Nat) :
    (l.foldl (fun m e => min m e.1) a) = a ∨
      ∃ kv ∈ l, (l.foldl (fun m e => min m e.1) a) = kv.1 := by
  induction l generalizing a with
  | nil => exact Or.inl rfl
  | cons x xs ih =>
      simp only [List.foldl_cons]
      rcases ih (min a x.1) with h | ⟨kv, hkv, he⟩
      · rcases Nat.le_total a x.1 with hax | hax
        · rw [h, Nat.min_eq_left hax]
          exact Or.inl rfl
        · rw [h, Nat.min_eq_right hax]
          exact Or.inr ⟨x, by simp, rfl⟩
      · exact Or.inr ⟨kv, by simp [hkv], he⟩

/-- peek_next_time is a lower bound on every scheduled time. -/
theorem peek_min {s : JobSchedule} {r : Nat} (h : s.peekNextTime = some r) :
    ∀ t ∈ schedTimes s, r ≤ t := by
  rcases s with ⟨entries⟩
  cases entries with
  | nil => cases h
  | cons kv rest =>
      simp only [JobSchedule.peekNextTime, Option.some.injEq] at h
      intro t ht
      simp only [schedTimes, List.map_cons, List.mem_cons] at ht
      obtain ⟨h1, h2⟩ := foldlMin_le rest kv.1
      rcases ht with ht | ht
      · rw [ht, ← h]
        exact h1
      · obtain ⟨kv', hkv', ht'⟩ := List.mem_map.mp ht
        rw [← ht', ← h]
        exact h2 kv' hkv'

/-- peek_next_time is attained by a scheduled time. -/
theorem peek_mem {s : JobSchedule} {r : Nat} (h : s.peekNextTime = some r) :
    r ∈ schedTimes s := by
  rcases s with ⟨entries⟩
  cases entries with
  | nil => cases h
  | cons kv rest =>
      simp only [JobSchedule.peekNextTime, Option.some.injEq] at h
      simp only [schedTimes, List.map_cons, List.mem_cons]
      rcases foldlMin_mem rest kv.1 with he | ⟨kv', hkv', he⟩
      · rw [← h, he]
        exact Or.inl rfl
      · right
        rw [← h, he]
        exact List.mem_map.mpr ⟨kv', hkv', rfl⟩

/-- JobSchedule.schedule only adds the given time to the key set. -/
theorem schedule_times_sub {s : JobSchedule} {t task : Nat} {s' : JobSchedule}
    (h : JobSchedule.schedule s t task = .ok s') :
    ∀ u ∈ schedTimes s', u ∈ schedTimes s ∨ u = t := by
  have hkeys : ∀ (es : List (Nat × List Nat)),
      (es.map (fun kv =>
        if kv.1 = t then (kv.1, kv.2 ++ [task]) else kv)).map Prod.fst =
      es.map Prod.fst := by
    intro es
    rw [List.map_map]
    apply map_congrB
    intro kv _
    by_cases hkt : kv.1 = t
    · rw [Function.comp_apply, if_pos hkt]
    · rw [Function.comp_apply, if_neg hkt]
  simp only [JobSchedule.schedule] at h
  by_cases hl : (alookup s.entries t).isSome
  · rw [if_pos hl] at h
    by_cases hm : JobSchedule.memTask s task
    · rw [if_pos hm] at h
      cases h
    · rw [if_neg hm] at h
      cases h
      intro u hu
      simp only [schedTimes] at hu ⊢
      rw [hkeys] at hu
      exact Or.inl hu
  · rw [if_neg hl] at h
    by_cases hm : JobSchedule.memTask ⟨s.entries ++ [(t, [])]⟩ task
    · rw [if_pos hm] at h
      cases h
    · rw [if_neg hm] at h
      cases h
      intro u hu
      simp only [schedTimes] at hu ⊢
      rw [hkeys, List.map_append] at hu
      rcases List.mem_append.mp hu with hu | hu
      · exact Or.inl hu
      · simp only [List.map_cons, List.map_nil, List.mem_singleton] at hu
        exact Or.inr hu

/-- get_next_batch pops the batch at peek time, keeping the other keys. -/
theorem getNextBatch_times {s : JobSchedule} {t : Nat} {b : List Nat}
    {s' : JobSchedule} (h : s.getNextBatch = some (t, b, s')) :
    s.peekNextTime = some t ∧ ∀ u ∈ schedTimes s', u ∈ schedTimes s := by
  unfold JobSchedule.getNextBatch at h
  cases hp : s.peekNextTime with
  | none =>
      rw [hp] at h
      cases h
  | some r =>
      rw [hp] at h
      simp only [Option.some.injEq, Prod.mk.injEq] at h
      obtain ⟨h1, _, h3⟩ := h
      refine ⟨by rw [← h1], ?_⟩
      intro u hu
      rw [← h3] at hu
      simp only [schedTimes] at hu ⊢
      obtain ⟨kv, hkv, hkvu⟩ := List.mem_map.mp hu
      exact List.mem_map.mpr ⟨kv, (List.mem_filter.mp hkv).1, hkvu⟩

/-- An empty schedule has no scheduled times. -/
theorem isEmpty_times {s : JobSchedule} (h : s.isEmpty = true) :
    schedTimes s = [] := by
  rcases s with ⟨entries⟩
  cases entries with
  | nil => rfl
  | cons kv rest => cases h

/-- Inversion of pure against ok. -/
theorem pureE_eq_ok {α : Type} {a b : α} :
    (pure a : Except SimError α) = .ok b ↔ a = b :=
  Iff.intro (fun h => Except.ok.inj h) (fun h => by rw [h]; rfl)

/-- Inversion of the advance projection. -/
theorem asAdv_eq_ok {x : Except SimError StepRes} {e : Engine} {st : TaskStatus} :
    asAdv x = .ok (e, st) ↔ x = .ok (.advV e st) := by
  cases x with
  | error er => simp [asAdv]
  | ok v => cases v <;> simp [asAdv]

/-- Inversion of the engine projection. -/
theorem asEng_eq_ok {x : Except SimError StepRes} {e : Engine} :
    asEng x = .ok e ↔ x = .ok (.engV e) := by
  cases x with
  | error er => simp [asEng]
  | ok v => cases v <;> simp [asEng]

/-- Inversion of the step projection. -/
theorem asStep_eq_ok {x : Except SimError StepRes} {e : Engine}
    {st : TaskStatus} {g : EventGraph} :
    asStep x = .ok (e, st, g) ↔ x = .ok (.stepV e st g) := by
  cases x with
  | error er => simp [asStep]
  | ok v => cases v <;> simp [asStep]

/-- make_task leaves the schedule unchanged. -/
theorem makeTaskE_sched {eng : Engine} {d : String} {a : Args} {e' : Engine}
    {t : Nat} (h : makeTaskE eng d a = .ok (e', t)) :
    e'.schedule = eng.schedule := by
  unfold makeTaskE at h
  cases hat : eng.activity_types d with
  | none =>
      rw [hat] at h
      cases h
  | some f =>
      rw [hat] at h
      cases h
      rfl

/-- The step kernel only adds schedule entries at or after the current
time: every scheduled time of the result engine was already scheduled in
the request engine or is at least the request time. -/
theorem stepRun_sched (fuel : Nat) :
    ∀ req r, stepRun fuel req = .ok r →
      ∀ u ∈ schedTimes (resEng r).schedule,
        u ∈ schedTimes (reqEng req).schedule ∨ reqNow req ≤ u := by
  induction fuel with
  | zero =>
      intro req r h
      simp [stepRun] at h
  | succ fuel ih =>
      intro req r h u hu
      cases req with
      | advR eng now tid p =>
          cases p with
          | done =>
              simp only [stepRun] at h
              cases h
              exact Or.inl hu
          | yieldP st k =>
              simp only [stepRun] at h
              cases h
              exact Or.inl hu
          | emitP t v k =>
              simp only [stepRun] at h
              obtain ⟨fr, h1, h2⟩ := bindM_eq_ok.mp h
              obtain ⟨fr', h3, h4⟩ := bindM_eq_ok.mp h2
              exact ih _ _ h4 u hu
          | readP ts k =>
              simp only [stepRun] at h
              obtain ⟨fr, h1, h2⟩ := bindM_eq_ok.mp h
              obtain ⟨pr, h3, h4⟩ := bindM_eq_ok.mp h2
              obtain ⟨res0, fr'⟩ := pr
              exact ih _ _ h4 u hu
          | spawnP child cargs k =>
              simp only [stepRun] at h
              obtain ⟨eng', h1, h2⟩ := bindM_eq_ok.mp h
              have h1' := asEng_eq_ok.mp h1
              rcases ih _ _ h2 u hu with hin | hge
              · exact ih _ _ h1' u hin
              · exact Or.inr hge
      | spawnR eng now dty args =>
          simp only [stepRun] at h
          obtain ⟨p0, h1, h2⟩ := bindM_eq_ok.mp h
          obtain ⟨eng1, task⟩ := p0
          have hsch := makeTaskE_sched h1
          rcases ih _ _ h2 u hu with hin | hge
          · left
            have hin' : u ∈ schedTimes eng1.schedule := hin
            rw [hsch] at hin'
            exact hin'
          · exact Or.inr hge
      | spawnTaskR eng now task is_call =>
          simp only [stepRun] at h
          split at h
          · cases h
          · rename_i parentFrame hfr
            obtain ⟨childFrame, hce, h2⟩ := bindM_eq_ok.mp h
            obtain ⟨trip, hstep0, h3⟩ := bindM_eq_ok.mp h2
            obtain ⟨eng1, st1, g1⟩ := trip
            have hstep := asStep_eq_ok.mp hstep0
            cases h3
            rcases hpt : parentFrame.task with _ | p
            · rw [hpt] at hu
              exact ih _ _ hstep u hu
            · rw [hpt] at hu
              cases is_call
              · exact ih _ _ hstep u hu
              · exact ih _ _ hstep u hu
      | stepR eng now task task_frame =>
          simp only [stepRun] at h
          obtain ⟨p1, hadv0, h2⟩ := bindM_eq_ok.mp h
          obtain ⟨eng2, st2⟩ := p1
          have hadv := asAdv_eq_ok.mp hadv0
          obtain ⟨p2, hdisp, h3⟩ := bindM_eq_ok.mp h2
          obtain ⟨eng3, resuming⟩ := p2
          obtain ⟨finalFrame, hgf, h4⟩ := bindM_eq_ok.mp h3
          cases h4
          have hbase : ∀ v, v ∈ schedTimes eng2.schedule →
              v ∈ schedTimes eng.schedule ∨ now ≤ v := by
            intro v hv
            exact ih _ _ hadv v hv
          cases st2 with
          | Completed =>
              obtain ⟨inp, hinp, hx1⟩ := bindM_eq_ok.mp hdisp
              obtain ⟨startT, hst, hx2⟩ := bindM_eq_ok.mp hx1
              split at hx2
              · rename_i blocked hblk
                obtain ⟨sched, hs, hx3⟩ := bindM_eq_ok.mp hx2
                obtain ⟨fr, hf, hx4⟩ := bindM_eq_ok.mp hx3
                obtain ⟨fr', hf2, hx5⟩ := bindM_eq_ok.mp hx4
                have hx5' := pureE_eq_ok.mp hx5
                cases hx5'
                rcases schedule_times_sub hs u hu with hin | heq
                · exact hbase u hin
                · exact Or.inr (le_of_eq heq.symm)
              · have hx2' := pureE_eq_ok.mp hx2
                cases hx2'
                exact hbase u hu
          | Delay d =>
              obtain ⟨sched, hs, hp⟩ := bindM_eq_ok.mp hdisp
              have hp' := pureE_eq_ok.mp hp
              cases hp'
              rcases schedule_times_sub hs u hu with hin | heq
              · exact hbase u hin
              · exact Or.inr (by rw [heq]; exact Nat.le_add_right now d)
          | AwaitCondition c =>
              have hp' := pureE_eq_ok.mp hdisp
              cases hp'
              exact hbase u hu
          | Call child_ty cargs =>
              obtain ⟨pc, hmk, hx1⟩ := bindM_eq_ok.mp hdisp
              obtain ⟨engc, child⟩ := pc
              have hmks := makeTaskE_sched hmk
              obtain ⟨engd, hae, hx2⟩ := bindM_eq_ok.mp hx1
              have hae' := asEng_eq_ok.mp hae
              have hx2' := pureE_eq_ok.mp hx2
              cases hx2'
              rcases ih _ _ hae' u hu with hin | hge
              · have hin' : u ∈ schedTimes engc.schedule := hin
                rw [hmks] at hin'
                exact hbase u hin'
              · exact Or.inr hge

/-- seq of two graphs is Empty only when both are. -/
theorem seqG_eq_empty {a b : EventGraph}
    (h : EventGraph.seqG a b = EventGraph.Empty) :
    a = EventGraph.Empty ∧ b = EventGraph.Empty := by
  cases a <;> cases b <;> simp_all [EventGraph.seqG]

/-- Strict times over an append. -/
theorem timesStrict_append {l1 l2 : List (Nat × EventGraph)} :
    timesStrict (l1 ++ l2) ↔ timesStrict l1 ∧ timesStrict l2 ∧
      ∀ t ∈ l1.map Prod.fst, ∀ v ∈ l2.map Prod.fst, t < v := by
  simp [timesStrict, List.map_append, List.pairwise_append]

/-- Strict times over a cons. -/
theorem timesStrict_cons {x : Nat × EventGraph} {l : List (Nat × EventGraph)} :
    timesStrict (x :: l) ↔ (∀ v ∈ l.map Prod.fst, x.1 < v) ∧ timesStrict l := by
  simp [timesStrict, List.pairwise_cons]

/-- Empty-freedom over an append. -/
theorem noEmptyE_append {l1 l2 : List (Nat × EventGraph)} :
    noEmptyE (l1 ++ l2) ↔ noEmptyE l1 ∧ noEmptyE l2 := by
  unfold noEmptyE
  constructor
  · intro h
    exact ⟨fun se hse => h se (List.mem_append.mpr (Or.inl hse)),
           fun se hse => h se (List.mem_append.mpr (Or.inr hse))⟩
  · intro h se hse
    rcases List.mem_append.mp hse with h1 | h2
    · exact h.1 se h1
    · exact h.2 se h2

/-- Draining retained entries strictly below the resume time preserves the
shape invariants and bounds both sides by the resume time. -/
theorem drainOld_props (resume : Nat) :
    ∀ (old events events' old' : List (Nat × EventGraph)),
      drainOld events old resume = (events', old') →
      timesStrict events → noEmptyE events →
      timesStrict old → noEmptyE old →
      (∀ t ∈ events.map Prod.fst, ∀ v ∈ old.map Prod.fst, t < v) →
      (∀ t ∈ events.map Prod.fst, t ≤ resume) →
      timesStrict events' ∧ noEmptyE events' ∧
        timesStrict old' ∧ noEmptyE old' ∧
        (∀ t ∈ events'.map Prod.fst, ∀ v ∈ old'.map Prod.fst, t < v) ∧
        (∀ t ∈ events'.map Prod.fst, t ≤ resume) ∧
        (∀ v ∈ old'.map Prod.fst, resume ≤ v) ∧
        (∀ v ∈ old'.map Prod.fst, v ∈ old.map Prod.fst) := by
  intro old
  induction old with
  | nil =>
      intro events events' old' h he1 he2 _ _ hcr hle
      cases h
      refine ⟨he1, he2, by simp [timesStrict], ?_, ?_, hle, ?_, ?_⟩
      · intro se hse
        cases hse
      · intro t _ v hv
        cases hv
      · intro v hv
        cases hv
      · intro v hv
        cases hv
  | cons tg rest ih =>
      intro events events' old' h he1 he2 ho1 ho2 hcr hle
      obtain ⟨t, g⟩ := tg
      simp only [drainOld] at h
      obtain ⟨hhead, hrest⟩ := timesStrict_cons.mp ho1
      by_cases htr : t < resume
      · rw [if_pos htr] at h
        have hres := ih (events ++ [(t, g)]) events' old' h ?_ ?_ hrest ?_ ?_ ?_
        · obtain ⟨a1, a2, a3, a4, a5, a6, a7, a8⟩ := hres
          refine ⟨a1, a2, a3, a4, a5, a6, a7, ?_⟩
          intro v hv
          simp only [List.map_cons, List.mem_cons]
          exact Or.inr (a8 v hv)
        · rw [timesStrict_append]
          refine ⟨he1, by simp [timesStrict], ?_⟩
          intro x hx v hv
          simp only [List.map_cons, List.map_nil, List.mem_singleton] at hv
          rw [hv]
          exact hcr x hx t (by simp)
        · rw [noEmptyE_append]
          exact ⟨he2, fun se hse => by
            rw [List.mem_singleton.mp hse]
            exact ho2 (t, g) (by simp)⟩
        · intro se hse
          exact ho2 se (by simp [hse])
        · intro x hx v hv
          rw [List.map_append] at hx
          rcases List.mem_append.mp hx with hx | hx
          · exact hcr x hx v (by simp [hv])
          · simp only [List.map_cons, List.map_nil, List.mem_singleton] at hx
            rw [hx]
            exact hhead v hv
        · intro x hx
          rw [List.map_append] at hx
          rcases List.mem_append.mp hx with hx | hx
          · exact hle x hx
          · simp only [List.map_cons, List.map_nil, List.mem_singleton] at hx
            rw [hx]
            exact Nat.le_of_lt htr
      · rw [if_neg htr] at h
        cases h
        refine ⟨he1, he2, ho1, ho2, hcr, hle, ?_, fun v hv => hv⟩
        intro v hv
        simp only [List.map_cons, List.mem_cons] at hv
        rcases hv with hv | hv
        · rw [hv]
          exact Nat.le_of_not_lt htr
        · exact Nat.le_trans (Nat.le_of_not_lt htr) (Nat.le_of_lt (hhead v hv))

/-- Merging the retained entry at the resume time keeps the later entries
only, all strictly after the resume time. -/
theorem mergeOld_props {bg bg' : EventGraph} {old old' : List (Nat × EventGraph)}
    {resume : Nat} (h : mergeOld bg old resume = .ok (bg', old'))
    (hge : ∀ v ∈ old.map Prod.fst, resume ≤ v)
    (hs : timesStrict old) :
    (∀ v ∈ old'.map Prod.fst, v ∈ old.map Prod.fst) ∧
      timesStrict old' ∧ (noEmptyE old → noEmptyE old') ∧
      (∀ v ∈ old'.map Prod.fst, resume < v) := by
  cases old with
  | nil =>
      simp only [mergeOld] at h
      cases h
      refine ⟨fun v hv => hv, by simp [timesStrict], fun h2 => h2, ?_⟩
      intro v hv
      cases hv
  | cons tg rest =>
      obtain ⟨t, g⟩ := tg
      obtain ⟨hhead, hrest⟩ := timesStrict_cons.mp hs
      cases rest with
      | nil =>
          simp only [mergeOld] at h
          by_cases htr : t = resume
          · rw [if_pos htr] at h
            cases h
            refine ⟨?_, by simp [timesStrict], ?_, ?_⟩
            · intro v hv
              cases hv
            · intro _ se hse
              cases hse
            · intro v hv
              cases hv
          · rw [if_neg htr] at h
            cases h
            refine ⟨fun v hv => hv, hs, fun h2 => h2, ?_⟩
            intro v hv
            simp only [List.map_cons, List.map_nil, List.mem_singleton] at hv
            rw [hv]
            exact Nat.lt_of_le_of_ne (hge t (by simp)) (fun he => htr he.symm)
      | cons tg2 rest2 =>
          obtain ⟨t2, g2⟩ := tg2
          simp only [mergeOld] at h
          by_cases htr : t = resume
          · rw [if_pos htr] at h
            by_cases ht2 : t2 = resume
            · rw [if_pos ht2] at h
              cases h
            · rw [if_neg ht2] at h
              cases h
              refine ⟨?_, hrest, ?_, ?_⟩
              · intro v hv
                simp only [List.map_cons, List.mem_cons] at hv ⊢
                tauto
              · intro h2 se hse
                exact h2 se (by simp [hse])
              · intro v hv
                rw [← htr]
                exact hhead v hv
          · rw [if_neg htr] at h
            cases h
            refine ⟨fun v hv => hv, hs, fun h2 => h2, ?_⟩
            intro v hv
            simp only [List.map_cons, List.mem_cons] at hv
            rcases hv with hv | hv
            · rw [hv]
              exact Nat.lt_of_le_of_ne (hge t (by simp)) (fun he => htr he.symm)
            · exact Nat.lt_of_le_of_lt (hge t (by simp))
                (hhead v (by simp only [List.map_cons, List.mem_cons]; exact hv))

/-- Appending a graph at the current time preserves the shape invariants
when every recorded time is at most the current time. -/
theorem appendCoalesce_props {events : List (Nat × EventGraph)} {now : Nat}
    {bg : EventGraph}
    (hs : timesStrict events) (hne : noEmptyE events)
    (hle : ∀ t ∈ events.map Prod.fst, t ≤ now) :
    timesStrict (appendCoalesce events now bg) ∧
      noEmptyE (appendCoalesce events now bg) ∧
      (∀ t ∈ (appendCoalesce events now bg).map Prod.fst, t ≤ now) := by
  unfold appendCoalesce
  by_cases hbe : bg = EventGraph.Empty
  · rw [if_pos hbe]
    exact ⟨hs, hne, hle⟩
  · rw [if_neg hbe]
    split
    · rename_i t g hgl
      · have hdecomp : events.dropLast ++ [(t, g)] = events :=
          List.dropLast_append_getLast? (t, g) (by rw [hgl]; rfl)
        have hlast_mem : (t, g) ∈ events := by
          rw [← hdecomp]
          simp
        have hdl_lt : ∀ x ∈ events.dropLast.map Prod.fst, x < t := by
          have := timesStrict_append.mp (by rw [hdecomp]; exact hs)
          intro x hx
          exact this.2.2 x hx t (by simp)
        by_cases htn : t = now
        · rw [if_pos htn]
          refine ⟨?_, ?_, ?_⟩
          · rw [timesStrict_append]
            refine ⟨List.Pairwise.sublist
                (List.Sublist.map Prod.fst (List.dropLast_sublist events)) hs,
              by simp [timesStrict], ?_⟩
            intro x hx v hv
            simp only [List.map_cons, List.map_nil, List.mem_singleton] at hv
            rw [hv]
            exact hdl_lt x hx
          · rw [noEmptyE_append]
            refine ⟨?_, ?_⟩
            · intro se hse
              exact hne se (List.Sublist.mem hse (List.dropLast_sublist events))
            · intro se hse
              rw [List.mem_singleton.mp hse]
              intro hcon
              exact hbe (seqG_eq_empty hcon).2
          · intro x hx
            rw [List.map_append] at hx
            rcases List.mem_append.mp hx with hx | hx
            · exact hle x (List.Sublist.mem hx
                (List.Sublist.map Prod.fst (List.dropLast_sublist events)))
            · simp only [List.map_cons, List.map_nil, List.mem_singleton] at hx
              rw [hx, ← htn]
        · rw [if_neg htn]
          have htlt : t < now :=
            Nat.lt_of_le_of_ne (hle t (List.mem_map.mpr ⟨(t, g), hlast_mem, rfl⟩)) htn
          refine ⟨?_, ?_, ?_⟩
          · rw [timesStrict_append]
            refine ⟨hs, by simp [timesStrict], ?_⟩
            intro x hx v hv
            simp only [List.map_cons, List.map_nil, List.mem_singleton] at hv
            rw [hv]
            have hx' : x ∈ (events.dropLast ++ [(t, g)]).map Prod.fst := by
              rw [hdecomp]
              exact hx
            rw [List.map_append] at hx'
            rcases List.mem_append.mp hx' with hx' | hx'
            · exact Nat.lt_trans (hdl_lt x hx') htlt
            · simp only [List.map_cons, List.map_nil, List.mem_singleton] at hx'
              rw [hx']
              exact htlt
          · rw [noEmptyE_append]
            refine ⟨hne, ?_⟩
            intro se hse
            rw [List.mem_singleton.mp hse]
            exact hbe
          · intro x hx
            rw [List.map_append] at hx
            rcases List.mem_append.mp hx with hx | hx
            · exact hle x hx
            · simp only [List.map_cons, List.map_nil, List.mem_singleton] at hx
              rw [hx]
    · rename_i hgl
      have hnil : events = [] := List.getLast?_eq_none_iff.mp hgl
      subst hnil
      refine ⟨by simp [timesStrict], ?_, by simp⟩
      intro se hse
      rw [List.mem_singleton.mp hse]
      exact hbe

/-- Stepping a batch only adds schedule entries at or after the tick time. -/
theorem stepBatch_sched (fuel now : Nat) (hist : List (Nat × EventGraph)) :
    ∀ (batch : List Nat) (eng : Engine) (acc : EventGraph) (eng' : Engine)
      (bg : EventGraph),
      stepBatch fuel now hist eng batch acc = .ok (eng', bg) →
      ∀ u ∈ schedTimes eng'.schedule,
        u ∈ schedTimes eng.schedule ∨ now ≤ u := by
  intro batch
  induction batch with
  | nil =>
      intro eng acc eng' bg h u hu
      simp only [stepBatch] at h
      cases h
      exact Or.inl hu
  | cons task rest ih =>
      intro eng acc eng' bg h u hu
      simp only [stepBatch] at h
      obtain ⟨trip, h1, h2⟩ := bindM_eq_ok.mp h
      obtain ⟨eng1, st1, g1⟩ := trip
      have h1' := asStep_eq_ok.mp h1
      rcases ih eng1 _ eng' bg h2 u hu with hin | hge
      · exact stepRun_sched fuel _ _ h1' u hin
      · exact Or.inr hge

/-- Condition evaluation only adds schedule entries at the current time. -/
theorem conditionLoop_sched (now : Nat) (hist : List (Nat × EventGraph)) :
    ∀ (pend : List (Cond × Nat)) (eng : Engine) (acc : EventGraph)
      (eng' : Engine) (g : EventGraph),
      conditionLoop now hist eng pend acc = .ok (eng', g) →
      ∀ u ∈ schedTimes eng'.schedule,
        u ∈ schedTimes eng.schedule ∨ u = now := by
  intro pend
  induction pend with
  | nil =>
      intro eng acc eng' g h u hu
      simp only [conditionLoop] at h
      cases h
      exact Or.inl hu
  | cons ct rest ih =>
      intro eng acc eng' g h u hu
      obtain ⟨c, task⟩ := ct
      simp only [conditionLoop] at h
      obtain ⟨bp, h1, h2⟩ := bindM_eq_ok.mp h
      obtain ⟨b, fr'⟩ := bp
      cases b with
      | true =>
          obtain ⟨sched, hs, h3⟩ := bindM_eq_ok.mp h2
          obtain ⟨y, hy, h4⟩ := bindM_eq_ok.mp h3
          have hy' := pureE_eq_ok.mp hy
          cases hy'
          rcases ih _ _ eng' g h4 u hu with hin | heq
          · exact schedule_times_sub hs u hin
          · exact Or.inr heq
      | false =>
          obtain ⟨y, hy, h4⟩ := bindM_eq_ok.mp h2
          have hy' := pureE_eq_ok.mp hy
          cases hy'
          rcases ih _ _ eng' g h4 u hu with hin | heq
          · exact Or.inl hin
          · exact Or.inr heq

/-- The condition phase of a tick preserves the history shape and only adds
schedule entries at the current time. -/
theorem conditionPhase_props {fuel now : Nat} {eng : Engine}
    {events : List (Nat × EventGraph)} {eng' : Engine}
    {events' : List (Nat × EventGraph)}
    (h : conditionPhase fuel now eng events = .ok (eng', events'))
    (hs : timesStrict events) (hne : noEmptyE events)
    (hle : ∀ t ∈ events.map Prod.fst, t ≤ now) :
    timesStrict events' ∧ noEmptyE events' ∧
      (∀ t ∈ events'.map Prod.fst, t ≤ now) ∧
      (∀ u ∈ schedTimes eng'.schedule,
        u ∈ schedTimes eng.schedule ∨ u = now) := by
  unfold conditionPhase at h
  obtain ⟨p, h1, h2⟩ := bindM_eq_ok.mp h
  obtain ⟨eng2, reads⟩ := p
  cases h2
  obtain ⟨a1, a2, a3⟩ := appendCoalesce_props hs hne hle
  exact ⟨a1, a2, a3, fun u hu => conditionLoop_sched now events _ _ _ _ _ h1 u hu⟩

/-- Scheduling a batch list at a fixed time through foldlM only adds that
time. -/
theorem foldlM_sched_times (t : Nat) :
    ∀ (batch : List Nat) (eng eng' : Engine),
      (batch.foldlM (fun e task => do
          let sch ← JobSchedule.schedule e.schedule t task
          pure {e with schedule := sch}) eng) = .ok eng' →
      ∀ u ∈ schedTimes eng'.schedule, u ∈ schedTimes eng.schedule ∨ u = t := by
  intro batch
  induction batch with
  | nil =>
      intro eng eng' h u hu
      have h' := pureE_eq_ok.mp h
      cases h'
      exact Or.inl hu
  | cons task rest ih =>
      intro eng eng' h u hu
      rw [List.foldlM_cons] at h
      obtain ⟨eng1, h1, h2⟩ := bindM_eq_ok.mp h
      obtain ⟨sch, hsc, hp⟩ := bindM_eq_ok.mp h1
      have hp' := pureE_eq_ok.mp hp
      cases hp'
      rcases ih _ _ h2 u hu with hin | heq
      · exact schedule_times_sub hsc u hin
      · exact Or.inr heq

/-- Draining a temporary schedule into an engine adds only the temporary
schedule's times. -/
theorem drainSchedule_times :
    ∀ (fuel : Nat) (eng : Engine) (s : JobSchedule) (eng' : Engine),
      drainSchedule fuel eng s = .ok eng' →
      ∀ u ∈ schedTimes eng'.schedule,
        u ∈ schedTimes eng.schedule ∨ u ∈ schedTimes s := by
  intro fuel
  induction fuel with
  | zero =>
      intro eng s eng' h
      simp [drainSchedule] at h
  | succ fuel ih =>
      intro eng s eng' h u hu
      simp only [drainSchedule] at h
      by_cases hemp : s.isEmpty = true
      · rw [if_pos hemp] at h
        cases h
        exact Or.inl hu
      · rw [if_neg hemp] at h
        cases hgb : s.getNextBatch with
        | none =>
            rw [hgb] at h
            cases h
        | some trip =>
            obtain ⟨t, batch, s1⟩ := trip
            rw [hgb] at h
            obtain ⟨eng1, h1, h2⟩ := bindM_eq_ok.mp h
            rcases ih eng1 s1 eng' h2 u hu with hin | hins1
            · rcases foldlM_sched_times t batch eng eng1 h1 u hin with he | he
              · exact Or.inl he
              · right
                rw [he]
                exact peek_mem (getNextBatch_times hgb).1
            · exact Or.inr ((getNextBatch_times hgb).2 u hins1)

/-- After the simulate loop stops at a stop time, every remaining scheduled
time is at least the stop time. -/
theorem simLoop_schedLB :
    ∀ (fuel : Nat) (ctx : SimCtx) (st fin : LoopSt) (T : Nat),
      ctx.stop_time = some T →
      simLoop fuel ctx st = .ok fin →
      ∀ u ∈ schedTimes fin.eng.schedule, T ≤ u := by
  intro fuel
  induction fuel with
  | zero =>
      intro ctx st fin T hstop h
      simp [simLoop] at h
  | succ fuel ih =>
      intro ctx st fin T hstop h u hu
      simp only [simLoop] at h
      by_cases hemp : st.eng.schedule.isEmpty = true
      · rw [if_pos hemp] at h
        cases h
        rw [isEmpty_times hemp] at hu
        cases hu
      · rw [if_neg hemp] at h
        obtain ⟨resume, hpk0, h2⟩ := bindM_eq_ok.mp h
        by_cases hstopr : stopReached ctx.stop_time resume = true
        · rw [if_pos hstopr] at h2
          cases h2
          have hpk : st.eng.schedule.peekNextTime = some resume := by
            cases hp : st.eng.schedule.peekNextTime with
            | none =>
                rw [hp] at hpk0
                cases hpk0
            | some r =>
                rw [hp] at hpk0
                rw [pureE_eq_ok.mp hpk0]
          have hTr : T ≤ resume := by
            unfold stopReached at hstopr
            rw [hstop] at hstopr
            exact of_decide_eq_true hstopr
          exact Nat.le_trans hTr (peek_min hpk u hu)
        · rw [if_neg hstopr] at h2
          rcases hdr : drainOld st.events st.old resume with ⟨events1, old1⟩
          rw [hdr] at h2
          obtain ⟨bs, hgb0, h3⟩ := bindM_eq_ok.mp h2
          obtain ⟨batch, sched1⟩ := bs
          obtain ⟨eb, hsb, h4⟩ := bindM_eq_ok.mp h3
          obtain ⟨eng2, bg⟩ := eb
          obtain ⟨bo, hmg, h5⟩ := bindM_eq_ok.mp h4
          obtain ⟨bg1, old2⟩ := bo
          split at h5
          · obtain ⟨y, hy, h6⟩ := bindM_eq_ok.mp h5
            obtain ⟨ee, hcond, h7⟩ := bindM_eq_ok.mp h6
            exact ih ctx _ fin T hstop h7 u hu
          · obtain ⟨y, hy, h6⟩ := bindM_eq_ok.mp h5
            obtain ⟨ee, hcond, h7⟩ := bindM_eq_ok.mp h6
            exact ih ctx _ fin T hstop h7 u hu

/-- A nested run stopped at a stop time leaves only schedule entries at or
after that time. -/
theorem simulateRun_schedLB {fuel : Nat} {model : ModelT} {plan : Plan}
    {T : Nat} {old : List (Nat × EventGraph)} {del : List Nat}
    {od : List (Nat × Directive)} {ops opc : List (Nat × Nat)}
    {idBase : Nat} {res : SimResult}
    (h : simulateRun fuel model plan (some T) old del od ops opc idBase =
      .ok res) :
    ∀ u ∈ schedTimes res.engine.schedule, T ≤ u := by
  cases fuel with
  | zero => simp [simulateRun] at h
  | succ fuel =>
      unfold simulateRun at h
      obtain ⟨eng0, hfold, h2⟩ := bindM_eq_ok.mp h
      obtain ⟨fin, hloop, h3⟩ := bindM_eq_ok.mp h2
      cases h3
      exact simLoop_schedLB fuel _ _ fin T rfl hloop

/-- Inversion of the Empty-dropping filter selector. -/
theorem dropEmpty_some {p : Event → Bool} {se b : Nat × EventGraph}
    (h : (if EventGraph.filterP p se.2 = EventGraph.Empty then none
          else some (se.1, EventGraph.filterP p se.2)) = some b) :
    b.1 = se.1 ∧ ¬ b.2 = EventGraph.Empty := by
  by_cases hfe : EventGraph.filterP p se.2 = EventGraph.Empty
  · rw [if_pos hfe] at h
    cases h
  · rw [if_neg hfe] at h
    have hb := Option.some.inj h
    rw [← hb]
    exact ⟨rfl, hfe⟩

/-- filterMap with a time-preserving selector yields a time-sublist. -/
theorem filterMap_fst_sublist
    {f : (Nat × EventGraph) → Option (Nat × EventGraph)}
    (hf : ∀ se b, f se = some b → b.1 = se.1) :
    ∀ (l : List (Nat × EventGraph)),
      ((l.filterMap f).map Prod.fst).Sublist (l.map Prod.fst) := by
  intro l
  induction l with
  | nil => simp
  | cons x xs ih =>
      rw [List.filterMap_cons]
      cases hfx : f x with
      | none =>
          show ((xs.filterMap f).map Prod.fst).Sublist (x.1 :: xs.map Prod.fst)
          exact List.Sublist.cons _ ih
      | some b =>
          show (b.1 :: (xs.filterMap f).map Prod.fst).Sublist
            (x.1 :: xs.map Prod.fst)
          rw [hf x b hfx]
          exact List.Sublist.cons₂ _ ih

/-- The stale branch filters the retained history (preserving shape) and
only adds schedule entries at or after the current time. -/
theorem staleBranch_props {fuel : Nat} {ctx : SimCtx} {now : Nat}
    {eng : Engine} {old : List (Nat × EventGraph)} {deleted newly : List Nat}
    {eng' : Engine} {old' : List (Nat × EventGraph)} {del' : List Nat}
    (h : staleBranch fuel ctx now eng old deleted newly =
      .ok (eng', old', del')) :
    (∀ v ∈ old'.map Prod.fst, v ∈ old.map Prod.fst) ∧
      (timesStrict old → timesStrict old') ∧
      noEmptyE old' ∧
      (∀ u ∈ schedTimes eng'.schedule,
        u ∈ schedTimes eng.schedule ∨ now ≤ u) := by
  cases fuel with
  | zero => simp [staleBranch] at h
  | succ fuel =>
      unfold staleBranch at h
      obtain ⟨newly1, hcc, h2⟩ := bindM_eq_ok.mp h
      obtain ⟨dirs, hdirs, h3⟩ := bindM_eq_ok.mp h2
      obtain ⟨res, hrun, h4⟩ := bindM_eq_ok.mp h3
      obtain ⟨engA, hds, h5⟩ := bindM_eq_ok.mp h4
      cases h5
      refine ⟨?_, ?_, ?_, ?_⟩
      · intro v hv
        exact List.Sublist.mem hv
          (filterMap_fst_sublist (fun se b hb => (dropEmpty_some hb).1) old)
      · intro hts
        exact List.Pairwise.sublist
          (filterMap_fst_sublist (fun se b hb => (dropEmpty_some hb).1) old) hts
      · intro se hse
        obtain ⟨se0, hse0, hfse⟩ := List.mem_filterMap.mp hse
        exact (dropEmpty_some hfse).2
      · intro u hu
        rcases drainSchedule_times (fuel + 1) _ _ _ hds u hu with hin | htemp
        · exact Or.inl hin
        · exact Or.inr (simulateRun_schedLB hrun u htemp)

/-- The simulate main loop preserves the history-shape invariant. -/
theorem simLoop_inv :
    ∀ (fuel : Nat) (ctx : SimCtx) (st fin : LoopSt),
      loopInv st → simLoop fuel ctx st = .ok fin → loopInv fin := by
  intro fuel
  induction fuel with
  | zero =>
      intro ctx st fin hinv h
      simp [simLoop] at h
  | succ fuel ih =>
      intro ctx st fin hinv h
      obtain ⟨hev1, hev2, hold1, hold2, hcr, hsc⟩ := hinv
      simp only [simLoop] at h
      by_cases hemp : st.eng.schedule.isEmpty = true
      · rw [if_pos hemp] at h
        cases h
        exact ⟨hev1, hev2, hold1, hold2, hcr, hsc⟩
      · rw [if_neg hemp] at h
        obtain ⟨resume, hpk0, h2⟩ := bindM_eq_ok.mp h
        have hpk : st.eng.schedule.peekNextTime = some resume := by
          cases hp : st.eng.schedule.peekNextTime with
          | none =>
              rw [hp] at hpk0
              cases hpk0
          | some r =>
              rw [hp] at hpk0
              rw [pureE_eq_ok.mp hpk0]
        by_cases hstopr : stopReached ctx.stop_time resume = true
        · rw [if_pos hstopr] at h2
          cases h2
          exact ⟨hev1, hev2, hold1, hold2, hcr, hsc⟩
        · rw [if_neg hstopr] at h2
          rcases hdr : drainOld st.events st.old resume with ⟨events1, old1⟩
          rw [hdr] at h2
          have hle1 : ∀ t ∈ st.events.map Prod.fst, t ≤ resume :=
            fun t ht => hsc t ht resume (peek_mem hpk)
          obtain ⟨d1, d2, d3, d4, d5, d6, d7, d8⟩ :=
            drainOld_props resume st.old st.events events1 old1 hdr
              hev1 hev2 hold1 hold2 hcr hle1
          obtain ⟨bs, hgb0, h3⟩ := bindM_eq_ok.mp h2
          obtain ⟨batch, sched1⟩ := bs
          have hgb : ∃ t0,
              st.eng.schedule.getNextBatch = some (t0, batch, sched1) := by
            cases hg : st.eng.schedule.getNextBatch with
            | none =>
                rw [hg] at hgb0
                cases hgb0
            | some trip =>
                obtain ⟨t0, b0, s0⟩ := trip
                rw [hg] at hgb0
                have hx := pureE_eq_ok.mp hgb0
                cases hx
                exact ⟨t0, rfl⟩
          obtain ⟨t0, hgbv⟩ := hgb
          obtain ⟨eb, hsb, h4⟩ := bindM_eq_ok.mp h3
          obtain ⟨eng2, bg⟩ := eb
          have hsbs : ∀ u ∈ schedTimes eng2.schedule,
              u ∈ schedTimes sched1 ∨ resume ≤ u :=
            fun u hu =>
              stepBatch_sched fuel resume events1 batch _ _ eng2 bg hsb u hu
          obtain ⟨bo, hmg, h5⟩ := bindM_eq_ok.mp h4
          obtain ⟨bg1, old2⟩ := bo
          obtain ⟨m1, m2, m3, m4⟩ := mergeOld_props hmg d7 d3
          obtain ⟨a1, a2, a3⟩ := appendCoalesce_props d1 d2 d6
          have hs_base : ∀ u ∈ schedTimes eng2.schedule, resume ≤ u := by
            intro u hu
            rcases hsbs u hu with h1x | h2x
            · exact peek_min hpk u ((getNextBatch_times hgbv).2 u h1x)
            · exact h2x
          split at h5
          · obtain ⟨y, hy, h6⟩ := bindM_eq_ok.mp h5
            have hy' := pureE_eq_ok.mp hy
            cases hy'
            obtain ⟨ee, hcond, h7⟩ := bindM_eq_ok.mp h6
            obtain ⟨eng4, events3⟩ := ee
            obtain ⟨c1, c2, c3, c4⟩ := conditionPhase_props hcond a1 a2 a3
            refine ih ctx _ fin ⟨c1, c2, m2, m3 d4, ?_, ?_⟩ h7
            · intro t ht v hv
              exact Nat.lt_of_le_of_lt (c3 t ht) (m4 v hv)
            · intro t ht s hsM
              refine Nat.le_trans (c3 t ht) ?_
              rcases c4 s hsM with hs3 | hseq
              · exact hs_base s hs3
              · exact le_of_eq hseq.symm
          · obtain ⟨y, hy, h6⟩ := bindM_eq_ok.mp h5
            obtain ⟨eng3, old3, del3⟩ := y
            obtain ⟨sb1, sb2, sb3, sb4⟩ := staleBranch_props hy
            obtain ⟨ee, hcond, h7⟩ := bindM_eq_ok.mp h6
            obtain ⟨eng4, events3⟩ := ee
            obtain ⟨c1, c2, c3, c4⟩ := conditionPhase_props hcond a1 a2 a3
            refine ih ctx _ fin ⟨c1, c2, sb2 m2, sb3, ?_, ?_⟩ h7
            · intro t ht v hv
              exact Nat.lt_of_le_of_lt (c3 t ht) (m4 v (sb1 v hv))
            · intro t ht s hsM
              refine Nat.le_trans (c3 t ht) ?_
              rcases c4 s hsM with hs3 | hseq
              · rcases sb4 s hs3 with hs2 | hge
                · exact hs_base s hs2
                · exact hge
              · exact le_of_eq hseq.symm

/-- C5: for every run of simulate whose retained old events have strictly
increasing times and no Empty graphs, the payload's recorded history and
the returned events list have strictly increasing start offsets, contain
no Empty graphs, and carry at most one entry per distinct time. -/
theorem c5_simulate_events_shape {fuel : Nat} {model : ModelT} {plan : Plan}
    {stop : Option Nat} {old : List (Nat × EventGraph)} {del : List Nat}
    {od : List (Nat × Directive)} {ops opc : List (Nat × Nat)}
    {idBase : Nat} {res : SimResult}
    (hold1 : timesStrict old) (hold2 : noEmptyE old)
    (h : simulateRun fuel model plan stop old del od ops opc idBase =
      .ok res) :
    timesStrict res.payload.events ∧ noEmptyE res.payload.events ∧
      timesStrict res.events ∧ noEmptyE res.events ∧
      (∀ t, (res.payload.events.map Prod.fst).count t ≤ 1) ∧
      (∀ t, (res.events.map Prod.fst).count t ≤ 1) := by
  cases fuel with
  | zero => simp [simulateRun] at h
  | succ fuel =>
      unfold simulateRun at h
      obtain ⟨eng0, hfold, h2⟩ := bindM_eq_ok.mp h
      obtain ⟨fin, hloop, h3⟩ := bindM_eq_ok.mp h2
      cases h3
      have hinit : loopInv ⟨eng0, [], old, del⟩ := by
        refine ⟨by simp [timesStrict], ?_, hold1, hold2, ?_, ?_⟩
        · intro se hse
          cases hse
        · intro t ht
          cases ht
        · intro t ht
          cases ht
      obtain ⟨f1, f2, f3, f4, f5, f6⟩ := simLoop_inv fuel _ _ fin hinit hloop
      have hpe : timesStrict (fin.events ++ fin.old) :=
        timesStrict_append.mpr ⟨f1, f3, f5⟩
      have hpe2 : noEmptyE (fin.events ++ fin.old) :=
        noEmptyE_append.mpr ⟨f2, f4⟩
      have hsub := @filterMap_fst_sublist
        (fun se =>
          if EventGraph.filterP (fun e => !isSpecialTopic e.topic) se.2 =
              EventGraph.Empty
          then none
          else some (se.1,
            EventGraph.filterP (fun e => !isSpecialTopic e.topic) se.2))
        (fun se b hb =>
          (@dropEmpty_some (fun e => !isSpecialTopic e.topic) se b hb).1)
        (fin.events ++ fin.old)
      have hre : timesStrict (withoutSpecialEvents (fin.events ++ fin.old)) :=
        List.Pairwise.sublist hsub hpe
      have hre2 : noEmptyE (withoutSpecialEvents (fin.events ++ fin.old)) := by
        intro se hse
        obtain ⟨se0, hse0, hfse⟩ := List.mem_filterMap.mp hse
        exact (@dropEmpty_some (fun e => !isSpecialTopic e.topic) se0 se hfse).2
      have hnd1 : ((fin.events ++ fin.old).map Prod.fst).Nodup :=
        List.Pairwise.imp (fun hx => Nat.ne_of_lt hx) hpe
      have hnd2 :
          ((withoutSpecialEvents (fin.events ++ fin.old)).map Prod.fst).Nodup :=
        List.Pairwise.imp (fun hx => Nat.ne_of_lt hx) hre
      exact ⟨hpe, hpe2, hre, hre2,
        fun t => List.nodup_iff_count_le_one.mp hnd1 t,
        fun t => List.nodup_iff_count_le_one.mp hnd2 t⟩

/-- C5 witness: the planA run over an empty retained history satisfies the
hypotheses, and its payload history and returned events are strictly
increasing. -/
theorem c5_simulate_events_shape_witness :
    timesStrict ([] : List (Nat × EventGraph)) ∧
      noEmptyE ([] : List (Nat × EventGraph)) ∧
      timesStrict resA.payload.events ∧ timesStrict resA.events := by
  have h1 : timesStrict ([] : List (Nat × EventGraph)) := by
    simp [timesStrict]
  have h2 : noEmptyE ([] : List (Nat × EventGraph)) := by
    intro se hse
    cases hse
  have hm := @c5_simulate_events_shape 20 modelAB planA none [] [] [] [] [] 0
    resA h1 h2 rfl
  exact ⟨h1, h2, hm.1, hm.2.2.1⟩

/-- C6 (amended): mergeOld — the embedding of the retained-history merge at
the top of each simulate tick — raises DuplicateResumeTime exactly when the
first two retained entries both carry the resume time; a single head entry
at the resume time is merged into the batch as conc(batch_graph, old_graph)
with the rest kept; a head entry at any other time (in particular retained
duplicates strictly below the resume time, which drain_old has already
moved verbatim) leaves the batch graph and the retained list untouched. -/
theorem c6_mergeOld_characterization (bg g1 g2 : EventGraph)
    (rest : List (Nat × EventGraph)) (resume t1 t2 : Nat) :
    (mergeOld bg ((resume, g1) :: (t2, g2) :: rest) resume =
        (if t2 = resume then .error .duplicateResumeTime
         else .ok (EventGraph.concG bg g1, (t2, g2) :: rest))) ∧
    (mergeOld bg [(resume, g1)] resume = .ok (EventGraph.concG bg g1, [])) ∧
    (t1 ≠ resume →
      mergeOld bg ((t1, g1) :: rest) resume = .ok (bg, (t1, g1) :: rest)) ∧
    (mergeOld bg ([] : List (Nat × EventGraph)) resume = .ok (bg, [])) := by
  refine ⟨?_, ?_, ?_, ?_⟩
  · simp only [mergeOld]
    rw [if_pos trivial]
  · simp only [mergeOld]
    rw [if_pos trivial]
  · intro h
    simp only [mergeOld]
    rw [if_neg h]
  · rfl

/-- C6 witness: a lone retained entry at time 7 with resume time 5
satisfies the hypothesis of the untouched case and is left in place. -/
theorem c6_mergeOld_characterization_witness :
    (7 : Nat) ≠ 5 ∧
      mergeOld EventGraph.Empty
          [(7, EventGraph.Atom ⟨.user "x", .vint 1, 0⟩)] 5 =
        .ok (EventGraph.Empty, [(7, EventGraph.Atom ⟨.user "x", .vint 1, 0⟩)]) :=
  ⟨by decide,
   (c6_mergeOld_characterization EventGraph.Empty
      (EventGraph.Atom ⟨.user "x", .vint 1, 0⟩) EventGraph.Empty [] 5 7 0).2.2.1
     (by decide)⟩

end Aerie
